import Mathlib

/-!
Shallow embedding of the A2A task lifecycle engine
(`src/task-manager.ts`, `src/rpc-handler.ts`, `src/models.ts`).

Modelling conventions:
* Timestamps (`new Date().toISOString()`, `Date.now()`) are modelled as a
  `Nat` instant `now` passed explicitly to each operation.
* `PartSchema` is `z.any()` in `models.ts`: parts are opaque values to the
  lifecycle engine, modelled as opaque string tokens.
* The JS `Map` is modelled as an insertion-ordered association list:
  `set` overwrites in place, `get` finds the entry, iteration is in
  insertion order — exactly the JS `Map` contract.
* `async` execution: `executeTask` runs synchronously from its call inside
  `createTask` up to its single suspension point `await this.handler(...)`;
  the remainder runs when the handler's promise settles.  We split it into
  `execPhase1` (up to the await) and `execPhase2` (after the await), with a
  `PendingExec` value recording the suspended continuation.
* JS object identity: `executeTask` captures the task object once; its
  post-await mutations are visible in the store only while the store still
  holds that same object.  The model gives each created record a fresh
  `gen : Nat` tag (a modelling artifact, not a source field) and
  `execPhase2` applies only when the stored record carries the captured tag.
-/

namespace A2A

/-- `models.ts` `PartSchema = z.any()`: opaque content token. -/
abbrev Part := String

/-- `MessageSchema.role : z.enum(['user','agent'])`. -/
inductive Role where
  | user
  | agent
deriving DecidableEq, Repr

/-- `MessageSchema`: role plus ordered parts (metadata is opaque and unused
by the engine, omitted). -/
structure Message where
  role : Role
  parts : List Part
deriving DecidableEq, Repr

/-- `TaskStateSchema = z.enum(['submitted','working','completed','failed','canceled'])`. -/
inductive TaskState where
  | submitted
  | working
  | completed
  | failed
  | canceled
deriving DecidableEq, Repr

/-- `TaskStatusSchema`: state, timestamp (modelled as a `Nat` instant),
optional human-readable message (set only on failure). -/
structure TaskStatus where
  state : TaskState
  timestamp : Nat
  message : Option String := none
deriving DecidableEq, Repr

/-- `ArtifactSchema`: ordered parts plus optional integer ordinal
(metadata omitted as opaque/unused). -/
structure Artifact where
  parts : List Part := []
  index : Option Int := none
deriving DecidableEq, Repr

/-- `TaskSchema` as constructed by `TaskManager.createTask`.
`history` is always initialized to `[message]` there, so it is a plain list
(the `task.history?` guards in `executeTask` are then always taken).
`gen` is the modelling tag for JS object identity (see module docstring);
`metadata` (always `{}`, never read) is omitted. -/
structure Task where
  id : String
  sessionId : String
  status : TaskStatus
  artifacts : List Artifact := []
  history : List Message := []
  gen : Nat := 0
deriving DecidableEq, Repr

/-- `TaskEventSchema.type : z.enum(['status','artifact','message'])`. -/
inductive EventType where
  | status
  | artifact
  | message
deriving DecidableEq, Repr

/-- `TaskEvent`: the emitted event.  `task` is the value of the task object
at emission time (listeners run synchronously on `emit`, so they observe
exactly this snapshot). -/
structure TaskEvent where
  type : EventType
  task : Task
  artifact : Option Artifact := none
  message : Option Message := none
deriving DecidableEq, Repr

/-- `TaskSendParamsSchema`: `{id, sessionId?, message}`
(`acceptedOutputModes` is never read by the engine, omitted). -/
structure TaskSendParams where
  id : String
  sessionId : Option String := none
  message : Message
deriving DecidableEq, Repr

/-- `TaskListParamsSchema`: `{limit?, cursor?, state?}`.  The zod schema
caps `limit` at 100 with default 50; `listTasks` itself re-defaults a
missing `limit` to 50 via destructuring. -/
structure TaskListParams where
  limit : Option Nat := none
  cursor : Option String := none
  state : Option TaskState := none
deriving DecidableEq, Repr

/-- What the awaited `this.handler(lastMessage)` promise eventually does:
fulfill with `{response, artifacts?}`, reject with a JS `Error` carrying a
message, or reject with a non-`Error` value. -/
inductive HandlerOutcome where
  | ok (response : Message) (artifacts : Option (List Artifact))
  | jsError (msg : String)
  | nonErrorThrow
deriving DecidableEq, Repr

/-- `error instanceof Error ? error.message : 'Unknown error'`
(from the `catch` block of `executeTask`). -/
def HandlerOutcome.errMsg : HandlerOutcome → String
  | .jsError m => m
  | _ => "Unknown error"

/-- Is the outcome a rejection? -/
def HandlerOutcome.isRejection : HandlerOutcome → Bool
  | .ok _ _ => false
  | _ => true

/-- The registered handler, `TaskHandler` in `task-manager.ts`; the model
maps the message directly to the eventual outcome of the returned promise. -/
abbrev HandlerFn := Message → HandlerOutcome

/-! ### The JS `Map` as an insertion-ordered association list -/

/-- `Map.get`. -/
def mapGet (l : List (String × Task)) (k : String) : Option Task :=
  match l with
  | [] => none
  | (k', v) :: rest => if k' = k then some v else mapGet rest k

/-- `Map.set`: overwrite in place (keeping the original insertion
position), else append. -/
def mapSet (l : List (String × Task)) (k : String) (v : Task) : List (String × Task) :=
  match l with
  | [] => [(k, v)]
  | (k', v') :: rest => if k' = k then (k, v) :: rest else (k', v') :: mapSet rest k v

/-- `Map.delete`: remove the entry with the given key (the first one; a JS
`Map` holds at most one entry per key). -/
def mapDelete (l : List (String × Task)) (k : String) : List (String × Task) :=
  match l with
  | [] => []
  | (k', v') :: rest => if k' = k then rest else (k', v') :: mapDelete rest k

/-- `Array.prototype.indexOf`, as an `Option Nat` (`none` for `-1`). -/
def idxOf? (l : List String) (x : String) : Option Nat :=
  match l with
  | [] => none
  | y :: rest => if y = x then some 0 else (idxOf? rest x).map (· + 1)

/-! ### The task manager state -/

/-- `TaskManager`'s fields: the task map, the insertion-order index, and
the registered handler.  `nextGen` generates the object-identity tags. -/
structure TaskManager where
  tasks : List (String × Task) := []
  taskOrder : List String := []
  handler : Option HandlerFn := none
  nextGen : Nat := 0

/-- A suspended `executeTask` continuation: the captured task id, the
captured object identity, and what the awaited handler promise will do
(the handler was applied to the captured last history message at call
time). -/
structure PendingExec where
  id : String
  gen : Nat
  outcome : HandlerOutcome

/-! ### Event constructors (`emitTaskEvent`) -/

/-- `emitTaskEvent('status', task)`. -/
def statusEvent (t : Task) : TaskEvent := { type := .status, task := t }

/-- `emitTaskEvent('message', task, { message })`. -/
def messageEvent (t : Task) (m : Message) : TaskEvent :=
  { type := .message, task := t, message := some m }

/-- `emitTaskEvent('artifact', task, { artifact })`. -/
def artifactEvent (t : Task) (a : Artifact) : TaskEvent :=
  { type := .artifact, task := t, artifact := some a }

/-! ### Lifecycle operations -/

/-- `params.sessionId || crypto.randomUUID()`.  JS `||` tests truthiness:
the empty string counts as absent.  `genUUID` is the random identifier the
environment would generate. -/
def sessionIdOrGen (sessionId : Option String) (genUUID : String) : String :=
  match sessionId with
  | some s => if s = "" then genUUID else s
  | none => genUUID

/-- The first half of `executeTask` (`task-manager.ts:74-92`): up to the
`await this.handler(lastMessage)` suspension point.  Returns the updated
manager, the events emitted so far, and the suspended continuation (if the
handler call was reached). -/
def execPhase1 (m : TaskManager) (taskId : String) (now : Nat) :
    TaskManager × List TaskEvent × Option PendingExec :=
  match mapGet m.tasks taskId, m.handler with
  | some task, some h =>
    let task1 : Task := { task with status := ⟨.working, now, none⟩ }
    let m1 : TaskManager := { m with tasks := mapSet m.tasks taskId task1 }
    -- `const lastMessage = task.history?.[task.history.length - 1]`
    match task1.history.getLast? with
    | some lm => (m1, [statusEvent task1], some ⟨taskId, task1.gen, h lm⟩)
    | none =>
      -- `throw new Error('No message found in task history')`, caught below
      let task2 : Task :=
        { task1 with status := ⟨.failed, now, some "No message found in task history"⟩ }
      ({ m with tasks := mapSet m.tasks taskId task2 },
       [statusEvent task1, statusEvent task2], none)
  | _, _ => (m, [], none)  -- `if (!task || !this.handler) return`

/-- The second half of `executeTask` (`task-manager.ts:92-119`): runs when
the handler's promise settles.  The code mutates the task object captured
in phase 1; those mutations are visible through the store only while the
store still holds that object, hence the `gen` guard. -/
def execPhase2 (m : TaskManager) (p : PendingExec) (now : Nat) :
    TaskManager × List TaskEvent :=
  match mapGet m.tasks p.id with
  | some task =>
    if task.gen = p.gen then
      match p.outcome with
      | .ok resp arts? =>
        -- `task.history.push(result.response)` then the message event
        let task1 : Task := { task with history := task.history ++ [resp] }
        let evMsg := messageEvent task1 resp
        -- `if (result.artifacts) { task.artifacts = result.artifacts; ... }`
        let task2 : Task :=
          match arts? with
          | some arts => { task1 with artifacts := arts }
          | none => task1
        let evArts :=
          match arts? with
          | some arts => arts.map (artifactEvent task2)
          | none => []
        let task3 : Task := { task2 with status := ⟨.completed, now, none⟩ }
        ({ m with tasks := mapSet m.tasks p.id task3 },
         evMsg :: evArts ++ [statusEvent task3])
      | outcome =>
        let task1 : Task := { task with status := ⟨.failed, now, some outcome.errMsg⟩ }
        ({ m with tasks := mapSet m.tasks p.id task1 }, [statusEvent task1])
    else (m, [])
  | none => (m, [])

/-- `createTask` (`task-manager.ts:43-72`), including the synchronous
prefix of the fire-and-forget `executeTask` call (phase 1 runs before
`createTask` returns).  `genSession` is the `crypto.randomUUID()` value.
Returns the updated manager, the task snapshot as constructed, all events
emitted during the call, and the suspended execution (if any). -/
def createTask (m : TaskManager) (params : TaskSendParams) (genSession : String) (now : Nat) :
    TaskManager × Task × List TaskEvent × Option PendingExec :=
  let task : Task :=
    { id := params.id
      sessionId := sessionIdOrGen params.sessionId genSession
      status := ⟨.submitted, now, none⟩
      artifacts := []
      history := [params.message]
      gen := m.nextGen }
  let m1 : TaskManager :=
    { m with
      tasks := mapSet m.tasks params.id task
      taskOrder := m.taskOrder ++ [params.id]
      nextGen := m.nextGen + 1 }
  let (m2, evs, pend) := execPhase1 m1 params.id now
  (m2, task, statusEvent task :: evs, pend)

/-- `getTask` (`task-manager.ts:122-124`). -/
def getTask (m : TaskManager) (taskId : String) : Option Task :=
  mapGet m.tasks taskId

/-- `cancelTask` (`task-manager.ts:126-144`).  NOTE: as written in the
source it returns a bare `boolean` — `false` both for a missing task and
for a terminal-state task, with no reason attached. -/
def cancelTask (m : TaskManager) (taskId : String) (now : Nat) :
    TaskManager × List TaskEvent × Bool :=
  match mapGet m.tasks taskId with
  | none => (m, [], false)
  | some task =>
    if task.status.state = .completed ∨ task.status.state = .failed then
      (m, [], false)
    else
      let task1 : Task := { task with status := ⟨.canceled, now, none⟩ }
      ({ m with tasks := mapSet m.tasks taskId task1 }, [statusEvent task1], true)

/-! ### listTasks -/

/-- `!state || task.status.state === state`. -/
def stateMatches (state? : Option TaskState) (t : Task) : Bool :=
  match state? with
  | none => true
  | some s => t.status.state = s

/-- The collection loop of `listTasks` (`task-manager.ts:168-178`): walk
the insertion order from the start index, stopping once `limit` tasks have
been collected.  `if (!taskId) continue` skips an empty-string id (falsy). -/
def collectTasks (m : TaskManager) (state? : Option TaskState) :
    List String → Nat → List Task
  | _, 0 => []
  | [], _ + 1 => []
  | tid :: rest, b + 1 =>
    if tid = "" then collectTasks m state? rest (b + 1)
    else
      match mapGet m.tasks tid with
      | some t =>
        if stateMatches state? t then t :: collectTasks m state? rest b
        else collectTasks m state? rest (b + 1)
      | none => collectTasks m state? rest (b + 1)

/-- `TaskListResult` (`task-manager.ts:19-23`). -/
structure TaskListResult where
  tasks : List Task
  nextCursor : Option String := none
  hasMore : Bool
deriving DecidableEq, Repr

/-- `listTasks`, lines 157-163: the start index.  `if (cursor)` treats
the empty string as absent; an unknown cursor means start from the
beginning (`indexOf` returns `-1`, leaving `startIndex = 0`). -/
def listStart (m : TaskManager) (cursor? : Option String) : Nat :=
  match cursor? with
  | some c =>
    if c = "" then 0
    else
      match idxOf? m.taskOrder c with
      | some i => i + 1
      | none => 0
  | none => 0

/-- `listTasks`, lines 181-183: the last returned task's position in the
*full* insertion order.  `lastTaskId ? this.taskOrder.indexOf(lastTaskId)
: -1` — an empty-string id is falsy and yields `-1`. -/
def lastIdx (m : TaskManager) (lastTaskId? : Option String) : Int :=
  match lastTaskId? with
  | some lid =>
    if lid = "" then -1
    else
      match idxOf? m.taskOrder lid with
      | some i => (i : Int)
      | none => -1
  | none => -1

/-- `listTasks` (`task-manager.ts:153-196`).  `hasMore` compares the last
returned task's position against the length of the full insertion order,
regardless of the state filter. -/
def listTasks (m : TaskManager) (params : TaskListParams) : TaskListResult :=
  let limit := params.limit.getD 50
  let startIndex := listStart m params.cursor
  let tasks := collectTasks m params.state (m.taskOrder.drop startIndex) limit
  let lastTaskId? := tasks.getLast?.map (·.id)
  let lastTaskIndex : Int := lastIdx m lastTaskId?
  let hasMore := 0 ≤ lastTaskIndex ∧ lastTaskIndex < (m.taskOrder.length : Int) - 1
  { tasks := tasks
    hasMore := decide hasMore
    nextCursor := if hasMore ∧ lastTaskId?.isSome then lastTaskId? else none }

/-! ### cleanup -/

/-- The body of `cleanup`'s loop (`task-manager.ts:198-211`): iterate the
map in insertion order; for each task whose timestamp is strictly before
the cutoff, delete it from the map and splice its first occurrence out of
the insertion order. -/
def cleanupEntries (cutoff : Int) :
    List (String × Task) → List String → List (String × Task) × List String
  | [], ord => ([], ord)
  | (k, t) :: rest, ord =>
    if (t.status.timestamp : Int) < cutoff then
      cleanupEntries cutoff rest (ord.erase k)
    else
      let (r, o) := cleanupEntries cutoff rest ord
      ((k, t) :: r, o)

/-- `cleanup(maxAgeMs)`: `cutoff = Date.now() - maxAgeMs` (can be
negative), removal iff `taskTime < cutoff`. -/
def cleanup (m : TaskManager) (now maxAgeMs : Nat) : TaskManager :=
  let cutoff : Int := (now : Int) - (maxAgeMs : Int)
  let (tasks', order') := cleanupEntries cutoff m.tasks m.taskOrder
  { m with tasks := tasks', taskOrder := order' }

/-! ### The request dispatcher (`rpc-handler.ts`)

The dispatcher is modelled at the typed level: each `handleX` function
below is the code path taken after the zod `safeParse` succeeded
(`INVALID_PARAMS` short-circuits are outside the claims' valid-params
hypotheses).  An RPC response carries exactly one of `result`/`error`. -/

/-- The `error` member of a JSON-RPC response. -/
structure RpcError where
  code : Int
  message : String
deriving DecidableEq, Repr

/-- The possible `result` payloads produced by the handlers under study. -/
inductive RpcResult where
  | task (t : Task)
  | canceled (value : Bool)
  | list (r : TaskListResult)
deriving DecidableEq, Repr

/-- A JSON-RPC response envelope (id copying is orthogonal to the claims
and omitted). -/
structure JSONRPCResponse where
  result : Option RpcResult := none
  error : Option RpcError := none
deriving DecidableEq, Repr

/-- Error codes from `rpc-handler.ts:35-43`. -/
def ErrorCodes.TASK_NOT_FOUND : Int := -32001

/-- `TASK_CANNOT_BE_CANCELED = -32002`. -/
def ErrorCodes.TASK_CANNOT_BE_CANCELED : Int := -32002

/-- `handleTaskSend` (`rpc-handler.ts:49-71`), valid-params path:
`const task = await taskManager.createTask(parseResult.data)` then
`return { result: task }`.  The `result` member holds a live reference to
the stored task object; by the time the response value is formed,
`executeTask` has already run synchronously to its first await, so the
referenced object reflects that progress — the model therefore snapshots
the *stored* record after `createTask` (not the freshly-constructed
`submitted` snapshot). -/
def handleTaskSend (m : TaskManager) (params : TaskSendParams) (genSession : String)
    (now : Nat) : TaskManager × List TaskEvent × Option PendingExec × JSONRPCResponse :=
  let (m', _task, evs, pend) := createTask m params genSession now
  (m', evs, pend,
    { result := (mapGet m'.tasks params.id).map .task })

/-- `handleTaskCancel` (`rpc-handler.ts:108-151`), valid-params path.

As written, the code does
`const result = taskManager.cancelTask(parseResult.data.id)` — but
`cancelTask` in `task-manager.ts` returns a bare `boolean`.  The
subsequent reads are JS property accesses on a boolean primitive, which
yield `undefined`:
* `if (!result.success)` — `undefined` is falsy, so the failure branch is
  always taken, for `true` and `false` alike;
* `if (result.reason === 'not_found')` — `undefined === 'not_found'` is
  false, so the `TASK_NOT_FOUND` branch is never taken;
* the template literal interpolates `result.state` as `"undefined"`.
The response is therefore always the `TASK_CANNOT_BE_CANCELED` error,
while `cancelTask`'s store mutation and event emission still happen. -/
def handleTaskCancel (m : TaskManager) (taskId : String) (now : Nat) :
    TaskManager × List TaskEvent × JSONRPCResponse :=
  let (m', evs, _result) := cancelTask m taskId now
  (m', evs,
    { error := some
        { code := ErrorCodes.TASK_CANNOT_BE_CANCELED
          message := "Task cannot be canceled: " ++ taskId ++ " (current state: undefined)" } })

/-- The `handleTaskCancel` the spec, the repository's tests
(`tests/task-manager.test.ts:155-220`) and `rpc-handler.ts` itself assume:
`cancelTask` returning a structured `{success, reason?, state?}` result,
surfaced as `-32001` for `not_found` and `-32002` (with the current state)
for `terminal_state`.  Modelled from the spec to express what the
dispatcher's three branches would produce if `cancelTask` supplied the
fields they read. -/
def handleTaskCancelIntended (m : TaskManager) (taskId : String) (now : Nat) :
    TaskManager × List TaskEvent × JSONRPCResponse :=
  match mapGet m.tasks taskId with
  | none =>
    (m, [],
      { error := some
          { code := ErrorCodes.TASK_NOT_FOUND
            message := "Task not found: " ++ taskId } })
  | some task =>
    if task.status.state = .completed ∨ task.status.state = .failed then
      (m, [],
        { error := some
            { code := ErrorCodes.TASK_CANNOT_BE_CANCELED
              message := "Task cannot be canceled: " ++ taskId } })
    else
      let (m', evs, _) := cancelTask m taskId now
      (m', evs, { result := some (.canceled true) })

/-! ### Trace semantics

Scheduling model (spec §5): a single logical thread with suspension only
at the handler-await boundary.  A `Step` is one atomic unit of work:
a `tasks/send` (which runs `createTask` and the synchronous prefix of
`executeTask`), the settling of one pending handler promise (the rest of
that `executeTask`), a cancellation, a cleanup sweep, or a handler
(re)registration.  Nothing can interleave inside a step. -/

/-- One atomic scheduler step. -/
inductive Step where
  | send (params : TaskSendParams) (genSession : String) (now : Nat)
  | settle (i : Nat) (now : Nat)
  | cancel (taskId : String) (now : Nat)
  | sweep (maxAgeMs : Nat) (now : Nat)
  | setHandler (h : Option HandlerFn)

/-- A configuration: the manager plus the suspended executions. -/
structure Config where
  mgr : TaskManager := {}
  pending : List PendingExec := []

/-- Apply one step, returning the new configuration and the events it
emitted. -/
def stepConfig (cfg : Config) : Step → Config × List TaskEvent
  | .send params genSession now =>
    let (m', _task, evs, pend) := createTask cfg.mgr params genSession now
    ({ mgr := m', pending := cfg.pending ++ pend.toList }, evs)
  | .settle i now =>
    match cfg.pending[i]? with
    | some p =>
      let (m', evs) := execPhase2 cfg.mgr p now
      ({ mgr := m', pending := cfg.pending.eraseIdx i }, evs)
    | none => (cfg, [])
  | .cancel taskId now =>
    let (m', evs, _) := cancelTask cfg.mgr taskId now
    ({ cfg with mgr := m' }, evs)
  | .sweep maxAgeMs now =>
    ({ cfg with mgr := cleanup cfg.mgr now maxAgeMs }, [])
  | .setHandler h =>
    ({ cfg with mgr := { cfg.mgr with handler := h } }, [])

/-- Run a trace from a configuration. -/
def runTrace (cfg : Config) : List Step → Config
  | [] => cfg
  | s :: rest => runTrace (stepConfig cfg s).1 rest

/-- Reachability from the initial (empty) configuration. -/
def Reachable (cfg : Config) : Prop :=
  ∃ tr : List Step, runTrace {} tr = cfg

/-! ## Lemmas about the map model -/

theorem mapGet_mapSet (l : List (String × Task)) (k k' : String) (v : Task) :
    mapGet (mapSet l k v) k' = if k = k' then some v else mapGet l k' := by
  induction l with
  | nil => simp [mapGet, mapSet]
  | cons e rest ih =>
    obtain ⟨k0, v0⟩ := e
    by_cases h0 : k0 = k
    · subst h0
      by_cases h1 : k0 = k'
      · subst h1; simp [mapGet, mapSet]
      · simp [mapGet, mapSet, h1]
    · by_cases h1 : k0 = k'
      · subst h1
        have : k ≠ k0 := fun h => h0 h.symm
        simp [mapGet, mapSet, h0, this]
      · simp [mapGet, mapSet, h0, h1, ih]

theorem mapGet_eq_none_iff (l : List (String × Task)) (k : String) :
    mapGet l k = none ↔ k ∉ l.map Prod.fst := by
  induction l with
  | nil => simp [mapGet]
  | cons e rest ih =>
    obtain ⟨k0, v0⟩ := e
    by_cases h0 : k0 = k
    · subst h0; simp [mapGet]
    · rw [show mapGet ((k0, v0) :: rest) k = mapGet rest k by simp [mapGet, h0], ih,
        List.map_cons, List.mem_cons, not_or]
      exact ⟨fun h => ⟨fun he => h0 he.symm, h⟩, And.right⟩

theorem mem_of_mapGet_eq_some {l : List (String × Task)} {k : String} {t : Task}
    (h : mapGet l k = some t) : (k, t) ∈ l := by
  induction l with
  | nil => simp [mapGet] at h
  | cons e rest ih =>
    obtain ⟨k0, v0⟩ := e
    by_cases h0 : k0 = k
    · subst h0
      rw [show mapGet ((k0, v0) :: rest) k0 = some v0 by simp [mapGet]] at h
      cases h
      exact List.mem_cons_self _ _
    · rw [show mapGet ((k0, v0) :: rest) k = mapGet rest k by simp [mapGet, h0]] at h
      exact List.mem_cons_of_mem _ (ih h)

theorem mem_mapSet {l : List (String × Task)} {k : String} {v : Task}
    {e : String × Task} : e ∈ mapSet l k v → e ∈ l ∨ e = (k, v) := by
  induction l with
  | nil =>
    intro h
    rw [show mapSet [] k v = [(k, v)] from rfl, List.mem_singleton] at h
    exact Or.inr h
  | cons e0 rest ih =>
    obtain ⟨k0, v0⟩ := e0
    by_cases h0 : k0 = k
    · subst h0
      rw [show mapSet ((k0, v0) :: rest) k0 v = (k0, v) :: rest from by simp [mapSet]]
      intro h
      rcases List.mem_cons.mp h with h | h
      · exact Or.inr h
      · exact Or.inl (List.mem_cons_of_mem _ h)
    · rw [show mapSet ((k0, v0) :: rest) k v = (k0, v0) :: mapSet rest k v from by
        simp [mapSet, h0]]
      intro h
      rcases List.mem_cons.mp h with h | h
      · exact Or.inl (h ▸ List.mem_cons_self _ _)
      · rcases ih h with h' | h'
        · exact Or.inl (List.mem_cons_of_mem _ h')
        · exact Or.inr h'

theorem keys_mapSet (l : List (String × Task)) (k : String) (v : Task) :
    (mapSet l k v).map Prod.fst =
      if k ∈ l.map Prod.fst then l.map Prod.fst else l.map Prod.fst ++ [k] := by
  induction l with
  | nil => simp [mapSet]
  | cons e rest ih =>
    obtain ⟨k0, v0⟩ := e
    by_cases h0 : k0 = k
    · subst h0; simp [mapSet]
    · have : ¬ k = k0 := fun h => h0 h.symm
      by_cases hmem : k ∈ rest.map Prod.fst <;>
        simp [mapSet, h0, this, hmem, ih]

theorem keys_mapSet_nodup {l : List (String × Task)} {k : String} {v : Task}
    (h : (l.map Prod.fst).Nodup) : ((mapSet l k v).map Prod.fst).Nodup := by
  rw [keys_mapSet]
  by_cases hmem : k ∈ l.map Prod.fst
  · simpa [hmem] using h
  · rw [if_neg hmem]
    refine List.Nodup.append h (List.nodup_singleton k) ?_
    intro a ha hak
    rw [List.mem_singleton] at hak
    exact hmem (hak ▸ ha)

theorem mapGet_filter {l : List (String × Task)} (hkeys : (l.map Prod.fst).Nodup)
    (p : String × Task → Bool) (k : String) :
    mapGet (l.filter p) k = (mapGet l k).bind (fun t => if p (k, t) then some t else none) := by
  induction l with
  | nil => simp [mapGet]
  | cons e rest ih =>
    obtain ⟨k0, v0⟩ := e
    have hkeys' : (rest.map Prod.fst).Nodup := (List.nodup_cons.mp hkeys).2
    have hk0 : k0 ∉ rest.map Prod.fst := (List.nodup_cons.mp hkeys).1
    by_cases h0 : k0 = k
    · subst h0
      have hnone : mapGet rest k0 = none := (mapGet_eq_none_iff rest k0).mpr hk0
      by_cases hp : p (k0, v0)
      · simp [List.filter, hp, mapGet]
      · have : mapGet (rest.filter p) k0 = none := by
          rw [mapGet_eq_none_iff]
          intro hmem
          exact hk0 (List.map_subset Prod.fst (List.filter_subset' rest) hmem)
        simp [List.filter, hp, mapGet, this, hnone]
    · by_cases hp : p (k0, v0) <;>
        simp [List.filter, hp, mapGet, h0, ih hkeys']

/-! ## Lemmas about cleanup -/

theorem cleanupEntries_fst (cutoff : Int) (l : List (String × Task)) (ord : List String) :
    (cleanupEntries cutoff l ord).1 =
      l.filter (fun e => !decide ((e.2.status.timestamp : Int) < cutoff)) := by
  induction l generalizing ord with
  | nil => simp [cleanupEntries]
  | cons e rest ih =>
    obtain ⟨k, t⟩ := e
    by_cases h : (t.status.timestamp : Int) < cutoff <;>
      simp [cleanupEntries, h, ih]

theorem cleanupEntries_of_all_kept (cutoff : Int) (l : List (String × Task))
    (ord : List String) (h : ∀ e ∈ l, ¬ (e.2.status.timestamp : Int) < cutoff) :
    cleanupEntries cutoff l ord = (l, ord) := by
  induction l generalizing ord with
  | nil => simp [cleanupEntries]
  | cons e rest ih =>
    obtain ⟨k, t⟩ := e
    have hk : ¬ (t.status.timestamp : Int) < cutoff := h (k, t) (List.mem_cons_self _ _)
    simp [cleanupEntries, hk, ih ord (fun e he => h e (List.mem_cons_of_mem _ he))]

theorem cleanupEntries_snd_mem (cutoff : Int) (l : List (String × Task))
    (ord : List String) (hord : ord.Nodup) (hkeys : (l.map Prod.fst).Nodup) (k : String) :
    k ∈ (cleanupEntries cutoff l ord).2 ↔
      k ∈ ord ∧ ∀ t : Task, (k, t) ∈ l → ¬ (t.status.timestamp : Int) < cutoff := by
  induction l generalizing ord with
  | nil => simp [cleanupEntries]
  | cons e rest ih =>
    obtain ⟨k0, t0⟩ := e
    have hkeys' : (rest.map Prod.fst).Nodup := (List.nodup_cons.mp hkeys).2
    have hk0 : k0 ∉ rest.map Prod.fst := (List.nodup_cons.mp hkeys).1
    by_cases hrm : (t0.status.timestamp : Int) < cutoff
    · rw [cleanupEntries, if_pos hrm, ih (ord.erase k0) (hord.erase k0) hkeys']
      constructor
      · rintro ⟨hmem, hall⟩
        have hne : k ≠ k0 ∧ k ∈ ord := (hord.mem_erase_iff).mp hmem
        refine ⟨hne.2, ?_⟩
        intro t ht
        rcases List.mem_cons.mp ht with ht | ht
        · exact absurd (congrArg Prod.fst ht) hne.1
        · exact hall t ht
      · rintro ⟨hmem, hall⟩
        have hne : k ≠ k0 := by
          intro h; subst h
          exact hall t0 (List.mem_cons_self _ _) hrm
        exact ⟨(hord.mem_erase_iff).mpr ⟨hne, hmem⟩, fun t ht => hall t (List.mem_cons_of_mem _ ht)⟩
    · rw [cleanupEntries, if_neg hrm]
      have heq : (cleanupEntries cutoff rest ord).2 = ((k0, t0) :: (cleanupEntries cutoff rest ord).1, (cleanupEntries cutoff rest ord).2).2 := rfl
      rw [show (match cleanupEntries cutoff rest ord with
            | (r, o) => ((k0, t0) :: r, o) : List (String × Task) × List String).2
          = (cleanupEntries cutoff rest ord).2 from rfl]
      rw [ih ord hord hkeys']
      constructor
      · rintro ⟨hmem, hall⟩
        refine ⟨hmem, ?_⟩
        intro t ht
        rcases List.mem_cons.mp ht with ht | ht
        · cases ht; exact hrm
        · exact hall t ht
      · rintro ⟨hmem, hall⟩
        exact ⟨hmem, fun t ht => hall t (List.mem_cons_of_mem _ ht)⟩

/-! ## Unfolding lemmas for the execution phases -/

theorem execPhase1_of_no_handler {m : TaskManager} (h : m.handler = none)
    (tid : String) (now : Nat) : execPhase1 m tid now = (m, [], none) := by
  cases hx : mapGet m.tasks tid <;> simp [execPhase1, h, hx]

theorem execPhase1_of_no_task {m : TaskManager} {tid : String}
    (h : mapGet m.tasks tid = none) (now : Nat) : execPhase1 m tid now = (m, [], none) := by
  cases hh : m.handler <;> simp [execPhase1, h, hh]

theorem execPhase1_run {m : TaskManager} {tid : String} {task : Task} {f : HandlerFn}
    {lm : Message} (h1 : mapGet m.tasks tid = some task) (h2 : m.handler = some f)
    (h3 : task.history.getLast? = some lm) (now : Nat) :
    execPhase1 m tid now =
      ({ m with tasks := mapSet m.tasks tid { task with status := ⟨.working, now, none⟩ } },
       [statusEvent { task with status := ⟨.working, now, none⟩ }],
       some ⟨tid, task.gen, f lm⟩) := by
  simp [execPhase1, h1, h2, h3]

/-! ## Concrete fixtures used by closed theorems -/

/-- A sample inbound user message. -/
def msgHi : Message := { role := .user, parts := ["hi"] }

/-- A sample handler response. -/
def msgDone : Message := { role := .agent, parts := ["done"] }

/-- A handler whose promise fulfills with `msgDone` and no artifacts. -/
def hOk : HandlerFn := fun _ => .ok msgDone none

/-- A store holding one `completed` task (as left behind by a finished
execution). -/
def doneTask : Task :=
  { id := "t-done", sessionId := "s", status := ⟨.completed, 0, none⟩ }

/-- The manager holding only `doneTask`. -/
def mDone : TaskManager := { tasks := [("t-done", doneTask)], taskOrder := ["t-done"] }

/-- The manager after `createTask {id := "t1"}` with no handler registered:
the task stays `submitted`. -/
def mSub : TaskManager := (createTask {} ⟨"t1", none, msgHi⟩ "sess" 0).1

/-- A store holding one task whose status timestamp is the instant `5`. -/
def mLate : TaskManager :=
  { tasks := [("t", { id := "t", sessionId := "s", status := ⟨.submitted, 5, none⟩ })],
    taskOrder := ["t"] }

/-! ## Claim theorems -/

/-- C1.  The claim describes a three-way cancellation case analysis whose
failure result distinguishes `not_found` (surfaced as `-32001`) from
`terminal_state` (surfaced as `-32002` with the actual state).  The code
violates this, contradicting its own tests: `cancelTask` returns a bare
boolean, `false` alike for a missing task and for a terminal-state task
(no reason, no state), and the dispatcher — reading `.success`/`.reason`
off that boolean, both `undefined` — answers *every* `tasks/cancel`,
including one for an unknown id, with error `-32002` and the text
`current state: undefined`.  The last two conjuncts show the branches the
dispatcher's own code was written for (as the tests demand them). -/
theorem cancel_result_code_bug :
    (cancelTask ({} : TaskManager) "missing" 0).2.2 = false ∧
    (cancelTask mDone "t-done" 0).2.2 = false ∧
    (handleTaskCancel ({} : TaskManager) "missing" 0).2.2.error.map RpcError.code =
      some ErrorCodes.TASK_CANNOT_BE_CANCELED ∧
    (handleTaskCancel ({} : TaskManager) "missing" 0).2.2.error.map RpcError.code ≠
      some ErrorCodes.TASK_NOT_FOUND ∧
    (handleTaskCancel ({} : TaskManager) "missing" 0).2.2.error.map RpcError.message =
      some "Task cannot be canceled: missing (current state: undefined)" ∧
    (handleTaskCancelIntended ({} : TaskManager) "missing" 0).2.2.error.map RpcError.code =
      some ErrorCodes.TASK_NOT_FOUND ∧
    (handleTaskCancelIntended mDone "t-done" 0).2.2.error.map RpcError.code =
      some ErrorCodes.TASK_CANNOT_BE_CANCELED := by
  refine ⟨rfl, by decide, rfl, by decide, rfl, rfl, by decide⟩

/-- C2.  Cancelling a `submitted` task: the store half of the claim holds
(`cancelTask` transitions to `canceled`, emits one status event, returns
`true`), but the dispatcher half fails — because `cancelTask` returns a
boolean and the handler reads `.success` off it (`undefined`, falsy), a
valid `tasks/cancel` on a cancellable task yields error `-32002` instead
of the success envelope `{canceled: true}` the claim (and the repo's
integration test) demands.  The last conjunct shows the intended
dispatcher response. -/
theorem cancel_success_dispatch_code_bug :
    ((getTask mSub "t1").map (fun t => t.status.state) = some .submitted) ∧
    (cancelTask mSub "t1" 5).2.2 = true ∧
    ((getTask (cancelTask mSub "t1" 5).1 "t1").map (fun t => t.status.state) =
      some .canceled) ∧
    ((cancelTask mSub "t1" 5).2.1.map TaskEvent.type = [.status]) ∧
    ((handleTaskCancel mSub "t1" 5).2.2.result = none) ∧
    ((handleTaskCancel mSub "t1" 5).2.2.error.map RpcError.code =
      some ErrorCodes.TASK_CANNOT_BE_CANCELED) ∧
    ((getTask (handleTaskCancel mSub "t1" 5).1 "t1").map (fun t => t.status.state) =
      some .canceled) ∧
    ((handleTaskCancelIntended mSub "t1" 5).2.2.result = some (.canceled true)) := by
  refine ⟨rfl, rfl, rfl, rfl, rfl, rfl, rfl, rfl⟩

/-- C9 counterexample.  `cleanup(0)` does *not* remove every task: the
comparison is strict (`taskTime < cutoff` with `cutoff = now - 0`), so a
task whose status timestamp equals the current instant survives. -/
theorem cleanup_zero_keeps_fresh_counterexample :
    (getTask (cleanup mLate 5 0) "t").isSome = true ∧
    (cleanup mLate 5 0).taskOrder = ["t"] := by
  refine ⟨rfl, rfl⟩

/-- C9 (amended).  `cleanup(maxAgeMs)` removes from the map and from the
insertion order exactly the tasks whose status timestamp is strictly older
than `now - maxAgeMs`, regardless of state; `maxAgeMs ≥ now` removes
nothing; `cleanup(0)` keeps exactly the tasks stamped at `now` or later
(so it removes every task only once the clock has advanced past every
timestamp). -/
theorem cleanup_exact :
    (∀ (m : TaskManager) (now maxAgeMs : Nat) (k : String) (t : Task),
      (m.tasks.map Prod.fst).Nodup →
      (getTask (cleanup m now maxAgeMs) k = some t ↔
        getTask m k = some t ∧ ¬ ((t.status.timestamp : Int) < (now : Int) - maxAgeMs))) ∧
    (∀ (m : TaskManager) (now maxAgeMs : Nat) (k : String),
      m.taskOrder.Nodup → (m.tasks.map Prod.fst).Nodup →
      (k ∈ (cleanup m now maxAgeMs).taskOrder ↔
        k ∈ m.taskOrder ∧
          ∀ t : Task, (k, t) ∈ m.tasks → ¬ ((t.status.timestamp : Int) < (now : Int) - maxAgeMs))) ∧
    (∀ (m : TaskManager) (now maxAgeMs : Nat),
      (now : Int) ≤ maxAgeMs → cleanup m now maxAgeMs = m) ∧
    (∀ (m : TaskManager) (now : Nat) (k : String) (t : Task),
      (m.tasks.map Prod.fst).Nodup →
      (getTask (cleanup m now 0) k = some t ↔
        getTask m k = some t ∧ now ≤ t.status.timestamp)) := by
  have hmain : ∀ (m : TaskManager) (now maxAgeMs : Nat) (k : String) (t : Task),
      (m.tasks.map Prod.fst).Nodup →
      (getTask (cleanup m now maxAgeMs) k = some t ↔
        getTask m k = some t ∧ ¬ ((t.status.timestamp : Int) < (now : Int) - maxAgeMs)) := by
    intro m now maxAgeMs k t hkeys
    have hcl : (cleanup m now maxAgeMs).tasks =
        m.tasks.filter
          (fun e => !decide ((e.2.status.timestamp : Int) < (now : Int) - maxAgeMs)) := by
      simp [cleanup, cleanupEntries_fst]
    simp only [getTask, hcl, mapGet_filter hkeys]
    cases hx : mapGet m.tasks k with
    | none => simp
    | some t' =>
      simp only [Option.some_bind]
      by_cases hp : (t'.status.timestamp : Int) < (now : Int) - maxAgeMs
      · rw [if_neg (by simp [hp])]
        constructor
        · intro h; cases h
        · rintro ⟨h1, h2⟩
          cases h1
          exact absurd hp h2
      · rw [if_pos (by simp [hp])]
        constructor
        · intro h; cases h; exact ⟨rfl, hp⟩
        · rintro ⟨h1, _⟩; exact h1
  refine ⟨hmain, ?_, ?_, ?_⟩
  · intro m now maxAgeMs k hord hkeys
    have := cleanupEntries_snd_mem ((now : Int) - maxAgeMs) m.tasks m.taskOrder hord hkeys k
    simpa [cleanup] using this
  · intro m now maxAgeMs hbig
    have hkept : ∀ e ∈ m.tasks, ¬ ((e.2.status.timestamp : Int) < (now : Int) - maxAgeMs) := by
      intro e _ hlt
      have h0 : (now : Int) - maxAgeMs ≤ 0 := by omega
      have : (0 : Int) ≤ (e.2.status.timestamp : Int) := Int.ofNat_nonneg _
      omega
    simp [cleanup, cleanupEntries_of_all_kept _ _ _ hkept]
  · intro m now k t hkeys
    rw [hmain m now 0 k t hkeys]
    constructor
    · rintro ⟨h1, h2⟩
      refine ⟨h1, ?_⟩
      omega
    · rintro ⟨h1, h2⟩
      refine ⟨h1, ?_⟩
      omega

/-- Witness for `cleanup_exact`: instantiated on the one-task store
`mLate` (timestamp 5) at `now = 10`: `cleanup 0` there removes the task,
while `cleanup` with `maxAgeMs = 10 ≥ now` keeps it. -/
theorem cleanup_exact_witness :
    ¬ (getTask (cleanup mLate 10 0) "t" = some
        { id := "t", sessionId := "s", status := ⟨.submitted, 5, none⟩ }) ∧
    cleanup mLate 10 10 = mLate := by
  constructor
  · intro h
    have := (cleanup_exact.1 mLate 10 0 "t"
      { id := "t", sessionId := "s", status := ⟨.submitted, 5, none⟩ } (by decide)).mp h
    have h5 : ((5 : Nat) : Int) < (10 : Int) - (0 : Nat) := by decide
    exact this.2 h5
  · exact cleanup_exact.2.2.1 mLate 10 10 (by decide)

/-! ## Named views of `createTask`'s intermediate values (proof plumbing) -/

/-- The task record `createTask` constructs (before execution starts). -/
def newTask (m : TaskManager) (params : TaskSendParams) (g : String) (now : Nat) : Task :=
  { id := params.id
    sessionId := sessionIdOrGen params.sessionId g
    status := ⟨.submitted, now, none⟩
    artifacts := []
    history := [params.message]
    gen := m.nextGen }

/-- The manager right after `createTask`'s `set`/`push`, before
`executeTask` starts. -/
def afterInsert (m : TaskManager) (params : TaskSendParams) (g : String) (now : Nat) :
    TaskManager :=
  { m with
    tasks := mapSet m.tasks params.id (newTask m params g now)
    taskOrder := m.taskOrder ++ [params.id]
    nextGen := m.nextGen + 1 }

theorem createTask_eq (m : TaskManager) (params : TaskSendParams) (g : String) (now : Nat) :
    createTask m params g now =
      ((execPhase1 (afterInsert m params g now) params.id now).1,
       newTask m params g now,
       statusEvent (newTask m params g now) ::
         (execPhase1 (afterInsert m params g now) params.id now).2.1,
       (execPhase1 (afterInsert m params g now) params.id now).2.2) := by
  rcases h : execPhase1 (afterInsert m params g now) params.id now with ⟨m2, evs, pend⟩
  simp only [createTask, newTask, afterInsert] at h ⊢
  rw [h]

theorem mapGet_afterInsert_self (m : TaskManager) (params : TaskSendParams)
    (g : String) (now : Nat) :
    mapGet (afterInsert m params g now).tasks params.id =
      some (newTask m params g now) := by
  simp [afterInsert, mapGet_mapSet]

/-- With a handler registered, `createTask` leaves the record `working`
with a pending execution; spelled out once for reuse. -/
theorem createTask_run (m : TaskManager) (params : TaskSendParams) (g : String)
    (now : Nat) (f : HandlerFn) (hh : m.handler = some f) :
    createTask m params g now =
      ({ afterInsert m params g now with
          tasks := mapSet (afterInsert m params g now).tasks params.id
            { newTask m params g now with status := ⟨.working, now, none⟩ } },
       newTask m params g now,
       [statusEvent (newTask m params g now),
        statusEvent { newTask m params g now with status := ⟨.working, now, none⟩ }],
       some ⟨params.id, m.nextGen, f params.message⟩) := by
  rw [createTask_eq]
  rw [execPhase1_run (mapGet_afterInsert_self m params g now)
    (show (afterInsert m params g now).handler = some f from hh)
    (show (newTask m params g now).history.getLast? = some params.message by
      simp [newTask]) now]
  rfl

/-! ## Unfolding lemmas for `execPhase2` -/

theorem execPhase2_rejection {m : TaskManager} {p : PendingExec} {task : Task}
    (hget : mapGet m.tasks p.id = some task) (hgen : task.gen = p.gen)
    (hrej : p.outcome.isRejection = true) (now : Nat) :
    execPhase2 m p now =
      ({ m with
          tasks := mapSet m.tasks p.id
            { task with status := ⟨.failed, now, some p.outcome.errMsg⟩ } },
       [statusEvent { task with status := ⟨.failed, now, some p.outcome.errMsg⟩ }]) := by
  cases hout : p.outcome with
  | ok resp arts => rw [hout] at hrej; simp [HandlerOutcome.isRejection] at hrej
  | jsError s => simp [execPhase2, hget, hout, if_pos hgen]
  | nonErrorThrow => simp [execPhase2, hget, hout, if_pos hgen]

theorem execPhase2_ok_some {m : TaskManager} {p : PendingExec} {task : Task}
    {resp : Message} {arts : List Artifact}
    (hget : mapGet m.tasks p.id = some task) (hgen : task.gen = p.gen)
    (hout : p.outcome = .ok resp (some arts)) (now : Nat) :
    execPhase2 m p now =
      ({ m with
          tasks := mapSet m.tasks p.id
            { task with
                history := task.history ++ [resp]
                artifacts := arts
                status := ⟨.completed, now, none⟩ } },
       messageEvent { task with history := task.history ++ [resp] } resp ::
         arts.map (artifactEvent
           { task with history := task.history ++ [resp], artifacts := arts }) ++
         [statusEvent
           { task with
              history := task.history ++ [resp]
              artifacts := arts
              status := ⟨.completed, now, none⟩ }]) := by
  simp [execPhase2, hget, hout, if_pos hgen]

theorem execPhase2_ok_none {m : TaskManager} {p : PendingExec} {task : Task}
    {resp : Message}
    (hget : mapGet m.tasks p.id = some task) (hgen : task.gen = p.gen)
    (hout : p.outcome = .ok resp none) (now : Nat) :
    execPhase2 m p now =
      ({ m with
          tasks := mapSet m.tasks p.id
            { task with
                history := task.history ++ [resp]
                status := ⟨.completed, now, none⟩ } },
       [messageEvent { task with history := task.history ++ [resp] } resp,
        statusEvent
          { task with
              history := task.history ++ [resp]
              status := ⟨.completed, now, none⟩ }]) := by
  simp [execPhase2, hget, hout, if_pos hgen]

/-- A concrete `working` record, as left by phase 1 with `gen = 0`. -/
def workTask : Task :=
  { id := "t", sessionId := "s", status := ⟨.working, 0, none⟩, history := [msgHi] }

/-- The manager holding only `workTask`. -/
def mWork : TaskManager := { tasks := [("t", workTask)], taskOrder := ["t"] }

/-- C5 counterexample.  The claim says the stored `sessionId` is "the
caller-supplied one" whenever it is supplied; but the source computes
`params.sessionId || crypto.randomUUID()`, and the empty string is falsy
in JS, so a caller-supplied `sessionId: ""` is replaced by the generated
identifier. -/
theorem createTask_empty_sessionId_counterexample :
    (createTask {} ⟨"t", some "", msgHi⟩ "generated-uuid" 0).2.1.sessionId =
      "generated-uuid" := by
  rfl

/-- C5 (amended).  `createTask` stores a task keyed by `params.id` whose
history is exactly `[message]` at construction, whose artifacts are empty,
and whose `sessionId` is the caller-supplied one when that is non-empty
and the generated unique identifier when it is omitted *or empty*; an
immediate `getTask` with the same id finds the record (still with that
history and empty artifacts, whatever the handler registration). -/
theorem createTask_initial_record (m : TaskManager) (params : TaskSendParams)
    (g : String) (now : Nat) :
    (createTask m params g now).2.1.history = [params.message] ∧
    (createTask m params g now).2.1.artifacts = [] ∧
    (createTask m params g now).2.1.status.state = .submitted ∧
    (createTask m params g now).2.1.id = params.id ∧
    (∀ s, params.sessionId = some s → s ≠ "" →
      (createTask m params g now).2.1.sessionId = s) ∧
    ((params.sessionId = none ∨ params.sessionId = some "") →
      (createTask m params g now).2.1.sessionId = g) ∧
    (∃ t, getTask (createTask m params g now).1 params.id = some t ∧
      t.history = [params.message] ∧ t.artifacts = []) := by
  have htask : (createTask m params g now).2.1 = newTask m params g now := by
    rw [createTask_eq]
  have hsess1 : ∀ s, params.sessionId = some s → s ≠ "" →
      sessionIdOrGen params.sessionId g = s := by
    intro s hs hne
    simp [sessionIdOrGen, hs, hne]
  have hsess2 : (params.sessionId = none ∨ params.sessionId = some "") →
      sessionIdOrGen params.sessionId g = g := by
    rintro (hs | hs) <;> simp [sessionIdOrGen, hs]
  refine ⟨by simp [htask, newTask], by simp [htask, newTask], by simp [htask, newTask],
    by simp [htask, newTask],
    fun s hs hne => by simp [htask, newTask, hsess1 s hs hne],
    fun hs => by simp [htask, newTask, hsess2 hs], ?_⟩
  rcases hh : m.handler with _ | f
  · refine ⟨newTask m params g now, ?_, by simp [newTask], by simp [newTask]⟩
    rw [createTask_eq,
      execPhase1_of_no_handler (show (afterInsert m params g now).handler = none from hh)]
    exact mapGet_afterInsert_self m params g now
  · refine ⟨{ newTask m params g now with status := ⟨.working, now, none⟩ }, ?_,
      by simp [newTask], by simp [newTask]⟩
    rw [createTask_run m params g now f hh]
    simp only [getTask]
    rw [mapGet_mapSet]
    simp

/-- Witness for `createTask_initial_record`: a concrete creation with a
caller-supplied non-empty session id. -/
theorem createTask_initial_record_witness :
    (createTask {} ⟨"t", some "sess", msgHi⟩ "g" 0).2.1.history = [msgHi] ∧
    (createTask {} ⟨"t", some "sess", msgHi⟩ "g" 0).2.1.sessionId = "sess" := by
  have h := createTask_initial_record {} ⟨"t", some "sess", msgHi⟩ "g" 0
  exact ⟨h.1, h.2.2.2.2.1 "sess" rfl (by decide)⟩

/-- C7.  A handler rejection leaves the task `failed` with
`status.message` the error's description (`Error.message`, or the
fallback `"Unknown error"` for a non-`Error` throw), emitting one status
event; and the handler's eventual outcome has no effect on what
`createTask` returns or stores — the rejection never reaches the caller
of `createTask`. -/
theorem handler_rejection_failure :
    (∀ (m : TaskManager) (p : PendingExec) (now : Nat) (task : Task),
      mapGet m.tasks p.id = some task → task.gen = p.gen →
      p.outcome.isRejection = true →
      ((getTask (execPhase2 m p now).1 p.id).map (fun t => t.status.state) =
          some .failed ∧
        (getTask (execPhase2 m p now).1 p.id).bind (fun t => t.status.message) =
          some p.outcome.errMsg ∧
        (execPhase2 m p now).2.map TaskEvent.type = [.status])) ∧
    (∀ (m : TaskManager) (params : TaskSendParams) (g : String) (now : Nat)
        (f1 f2 : HandlerFn),
      (createTask { m with handler := some f1 } params g now).2.1 =
        (createTask { m with handler := some f2 } params g now).2.1 ∧
      (createTask { m with handler := some f1 } params g now).1.tasks =
        (createTask { m with handler := some f2 } params g now).1.tasks ∧
      (createTask { m with handler := some f1 } params g now).2.2.1 =
        (createTask { m with handler := some f2 } params g now).2.2.1) := by
  constructor
  · intro m p now task hget hgen hrej
    rw [execPhase2_rejection hget hgen hrej now]
    refine ⟨?_, ?_, by simp [statusEvent]⟩
    · simp only [getTask]
      rw [mapGet_mapSet]
      simp
    · simp only [getTask]
      rw [mapGet_mapSet]
      simp
  · intro m params g now f1 f2
    rw [createTask_run { m with handler := some f1 } params g now f1 rfl,
      createTask_run { m with handler := some f2 } params g now f2 rfl]
    exact ⟨rfl, rfl, rfl⟩

/-- Witness for `handler_rejection_failure`: a handler throwing
`Error("boom")` on a stored `working` task yields `failed` with
`status.message = "boom"`. -/
theorem handler_rejection_failure_witness :
    (getTask (execPhase2 mWork ⟨"t", 0, .jsError "boom"⟩ 1).1 "t").map
      (fun t => t.status.state) = some .failed ∧
    (getTask (execPhase2 mWork ⟨"t", 0, .jsError "boom"⟩ 1).1 "t").bind
      (fun t => t.status.message) = some "boom" := by
  have h := handler_rejection_failure.1 mWork ⟨"t", 0, .jsError "boom"⟩ 1 workTask
    (by decide) (by decide) (by decide)
  exact ⟨h.1, h.2.1⟩

/-- C8.  After a successful handler resolution, the emitted events are
exactly: one `message` event carrying the handler's response (whose task
snapshot already has the response appended to history), then one
`artifact` event per returned artifact in order (snapshots already
carrying the replaced artifacts), then one final `status` event with
state `completed`; and the store is updated before the events fire — the
final record has the new history, the replaced artifacts, and completed
status.  When the handler returns no artifacts, the artifact list is left
untouched and no artifact event fires. -/
theorem success_emission_order :
    (∀ (m : TaskManager) (p : PendingExec) (now : Nat) (task : Task) (resp : Message)
        (arts : List Artifact),
      mapGet m.tasks p.id = some task → task.gen = p.gen →
      p.outcome = .ok resp (some arts) →
      ((execPhase2 m p now).2 =
          messageEvent { task with history := task.history ++ [resp] } resp ::
            arts.map (artifactEvent
              { task with history := task.history ++ [resp], artifacts := arts }) ++
            [statusEvent
              { task with
                  history := task.history ++ [resp]
                  artifacts := arts
                  status := ⟨.completed, now, none⟩ }] ∧
        (execPhase2 m p now).2.map TaskEvent.type =
          .message :: arts.map (fun _ => EventType.artifact) ++ [.status] ∧
        getTask (execPhase2 m p now).1 p.id =
          some { task with
                  history := task.history ++ [resp]
                  artifacts := arts
                  status := ⟨.completed, now, none⟩ })) ∧
    (∀ (m : TaskManager) (p : PendingExec) (now : Nat) (task : Task) (resp : Message),
      mapGet m.tasks p.id = some task → task.gen = p.gen →
      p.outcome = .ok resp none →
      ((execPhase2 m p now).2 =
          [messageEvent { task with history := task.history ++ [resp] } resp,
            statusEvent
              { task with
                  history := task.history ++ [resp]
                  status := ⟨.completed, now, none⟩ }] ∧
        getTask (execPhase2 m p now).1 p.id =
          some { task with
                  history := task.history ++ [resp]
                  status := ⟨.completed, now, none⟩ })) := by
  constructor
  · intro m p now task resp arts hget hgen hout
    rw [execPhase2_ok_some hget hgen hout now]
    refine ⟨rfl, ?_, ?_⟩
    · have hcomp : ∀ t : Task, (TaskEvent.type ∘ artifactEvent t) =
          fun _ => EventType.artifact := fun t => funext fun a => rfl
      simp [messageEvent, statusEvent, hcomp]
    · simp only [getTask]
      rw [mapGet_mapSet]
      simp
  · intro m p now task resp hget hgen hout
    rw [execPhase2_ok_none hget hgen hout now]
    refine ⟨rfl, ?_⟩
    simp only [getTask]
    rw [mapGet_mapSet]
    simp

/-- Witness for `success_emission_order`: a concrete resolution with two
artifacts shows the `message`/`artifact`/`artifact`/`status` order. -/
theorem success_emission_order_witness :
    (execPhase2 mWork
        ⟨"t", 0, .ok msgDone (some [{ parts := ["a1"] }, { parts := ["a2"] }])⟩ 1).2.map
      TaskEvent.type = [.message, .artifact, .artifact, .status] := by
  have h := success_emission_order.1 mWork
    ⟨"t", 0, .ok msgDone (some [{ parts := ["a1"] }, { parts := ["a2"] }])⟩ 1
    workTask msgDone [{ parts := ["a1"] }, { parts := ["a2"] }]
    (by decide) (by decide) (by decide)
  rw [h.2.1]
  rfl

/-! ## The §4.1 state machine, plus the last-write-wins edges -/

/-- The transitions of the spec's §4.1 diagram. -/
def diagramEdge : TaskState → TaskState → Bool
  | .submitted, .working => true
  | .working, .completed => true
  | .working, .failed => true
  | .submitted, .canceled => true
  | .working, .canceled => true
  | _, _ => false

/-- The extra transitions the source actually performs: an in-flight
execution that settles after a cancellation overwrites `canceled` with
the handler's outcome (spec §4.1 note / §9 "last write wins"). -/
def lastWriteWinsEdge : TaskState → TaskState → Bool
  | .canceled, .completed => true
  | .canceled, .failed => true
  | _, _ => false

/-- Execution-state invariant of reachable configurations: store keys are
distinct; generation tags of pending executions and stored records are
below the generator; pending tags are distinct; and a pending execution
whose captured object is still the stored record can only see it
`working` or `canceled`. -/
def StoreInv (cfg : Config) : Prop :=
  ((cfg.mgr.tasks.map Prod.fst).Nodup) ∧
  (∀ p ∈ cfg.pending, p.gen < cfg.mgr.nextGen) ∧
  (∀ e ∈ cfg.mgr.tasks, (e : String × Task).2.gen < cfg.mgr.nextGen) ∧
  ((cfg.pending.map PendingExec.gen).Nodup) ∧
  (∀ p ∈ cfg.pending, ∀ t : Task, mapGet cfg.mgr.tasks p.id = some t → t.gen = p.gen →
    t.status.state = .working ∨ t.status.state = .canceled)

/-! ## Unfolding lemmas for `stepConfig` and `cancelTask` -/

theorem stepConfig_send (cfg : Config) (params : TaskSendParams) (g : String) (now : Nat) :
    stepConfig cfg (.send params g now) =
      ({ mgr := (createTask cfg.mgr params g now).1,
         pending := cfg.pending ++ (createTask cfg.mgr params g now).2.2.2.toList },
       (createTask cfg.mgr params g now).2.2.1) := by
  rcases h : createTask cfg.mgr params g now with ⟨m2, task, evs, pend⟩
  simp [stepConfig, h]

theorem stepConfig_settle_some {cfg : Config} {i : Nat} {p : PendingExec}
    (hp : cfg.pending[i]? = some p) (now : Nat) :
    stepConfig cfg (.settle i now) =
      ({ mgr := (execPhase2 cfg.mgr p now).1, pending := cfg.pending.eraseIdx i },
       (execPhase2 cfg.mgr p now).2) := by
  rcases h : execPhase2 cfg.mgr p now with ⟨m2, evs⟩
  simp [stepConfig, hp, h]

theorem stepConfig_settle_none {cfg : Config} {i : Nat}
    (hp : cfg.pending[i]? = none) (now : Nat) :
    stepConfig cfg (.settle i now) = (cfg, []) := by
  simp [stepConfig, hp]

theorem stepConfig_cancel (cfg : Config) (tid : String) (now : Nat) :
    stepConfig cfg (.cancel tid now) =
      ({ cfg with mgr := (cancelTask cfg.mgr tid now).1 },
       (cancelTask cfg.mgr tid now).2.1) := by
  rcases h : cancelTask cfg.mgr tid now with ⟨m2, evs, b⟩
  simp [stepConfig, h]

theorem cancelTask_not_found {m : TaskManager} {tid : String}
    (h : mapGet m.tasks tid = none) (now : Nat) :
    cancelTask m tid now = (m, [], false) := by
  simp [cancelTask, h]

theorem cancelTask_terminal {m : TaskManager} {tid : String} {task : Task}
    (h : mapGet m.tasks tid = some task)
    (hterm : task.status.state = .completed ∨ task.status.state = .failed) (now : Nat) :
    cancelTask m tid now = (m, [], false) := by
  simp [cancelTask, h, hterm]

theorem cancelTask_active {m : TaskManager} {tid : String} {task : Task}
    (h : mapGet m.tasks tid = some task)
    (hact : ¬ (task.status.state = .completed ∨ task.status.state = .failed)) (now : Nat) :
    cancelTask m tid now =
      ({ m with
          tasks := mapSet m.tasks tid { task with status := ⟨.canceled, now, none⟩ } },
       [statusEvent { task with status := ⟨.canceled, now, none⟩ }], true) := by
  simp [cancelTask, h, hact]

theorem mapGet_mapSet_mapSet (l : List (String × Task)) (k : String) (v1 v2 : Task)
    (k' : String) :
    mapGet (mapSet (mapSet l k v1) k v2) k' = if k = k' then some v2 else mapGet l k' := by
  rw [mapGet_mapSet, mapGet_mapSet]
  by_cases h : k = k' <;> simp [h]

theorem pending_gen_unique {l : List PendingExec}
    (hn : (l.map PendingExec.gen).Nodup) :
    ∀ {i : Nat} {p p' : PendingExec}, l[i]? = some p → p' ∈ l.eraseIdx i →
      p'.gen ≠ p.gen := by
  induction l with
  | nil => intro i p p' hp; simp at hp
  | cons x xs ih =>
    intro i p p' hp hmem
    have hhead : x.gen ∉ xs.map PendingExec.gen := (List.nodup_cons.mp hn).1
    have htail : (xs.map PendingExec.gen).Nodup := (List.nodup_cons.mp hn).2
    cases i with
    | zero =>
      rw [List.getElem?_cons_zero] at hp
      cases hp
      rw [List.eraseIdx_cons_zero] at hmem
      intro hgen
      exact hhead (hgen ▸ List.mem_map_of_mem PendingExec.gen hmem)
    | succ i =>
      rw [List.getElem?_cons_succ] at hp
      rw [List.eraseIdx_cons_succ] at hmem
      rcases List.mem_cons.mp hmem with h | h
      · subst h
        intro hgen
        have hpmem : p ∈ xs := List.getElem?_mem hp
        exact hhead (hgen.symm ▸ List.mem_map_of_mem PendingExec.gen hpmem)
      · exact ih htail hp h

/-- The store effect of `execPhase2` when the captured object is still the
stored record: the record is overwritten with the same generation and a
terminal completed/failed state. -/
theorem execPhase2_store {m : TaskManager} {p : PendingExec} {task : Task}
    (hget : mapGet m.tasks p.id = some task) (hgen : task.gen = p.gen) (now : Nat) :
    ∃ t2 : Task, (execPhase2 m p now).1 = { m with tasks := mapSet m.tasks p.id t2 } ∧
      t2.gen = task.gen ∧ t2.id = task.id ∧
      (t2.status.state = .completed ∨ t2.status.state = .failed) := by
  cases hout : p.outcome with
  | ok resp arts? =>
    cases arts? with
    | some arts =>
      refine ⟨{ task with
                  history := task.history ++ [resp]
                  artifacts := arts
                  status := ⟨.completed, now, none⟩ }, ?_, rfl, rfl, Or.inl rfl⟩
      rw [execPhase2_ok_some hget hgen hout now]
    | none =>
      refine ⟨{ task with
                  history := task.history ++ [resp]
                  status := ⟨.completed, now, none⟩ }, ?_, rfl, rfl, Or.inl rfl⟩
      rw [execPhase2_ok_none hget hgen hout now]
  | jsError s =>
    refine ⟨{ task with
                status := ⟨.failed, now, some p.outcome.errMsg⟩ }, ?_, rfl, rfl, Or.inr rfl⟩
    rw [execPhase2_rejection hget hgen (by rw [hout]; rfl) now]
  | nonErrorThrow =>
    refine ⟨{ task with
                status := ⟨.failed, now, some p.outcome.errMsg⟩ }, ?_, rfl, rfl, Or.inr rfl⟩
    rw [execPhase2_rejection hget hgen (by rw [hout]; rfl) now]

/-! ## Invariant preservation, one lemma per step kind -/

theorem stepInv_send {cfg : Config} (hinv : StoreInv cfg) (params : TaskSendParams)
    (g : String) (now : Nat) : StoreInv (stepConfig cfg (.send params g now)).1 := by
  obtain ⟨h1, h2, h3, h4, h5⟩ := hinv
  rw [stepConfig_send]
  rcases hh : cfg.mgr.handler with _ | f
  · have hct : createTask cfg.mgr params g now =
        (afterInsert cfg.mgr params g now, newTask cfg.mgr params g now,
         [statusEvent (newTask cfg.mgr params g now)], none) := by
      rw [createTask_eq,
        execPhase1_of_no_handler
          (show (afterInsert cfg.mgr params g now).handler = none from hh) params.id now]
    rw [hct]
    refine ⟨keys_mapSet_nodup h1, ?_, ?_, ?_, ?_⟩
    · intro p hp
      simp only [Option.toList_none, List.append_nil] at hp
      exact Nat.lt_succ_of_lt (h2 p hp)
    · intro e he
      rcases mem_mapSet he with h | h
      · exact Nat.lt_succ_of_lt (h3 e h)
      · subst h
        exact Nat.lt_succ_self _
    · simpa using h4
    · intro p hp t hget htg
      simp only [Option.toList_none, List.append_nil] at hp
      rw [show (afterInsert cfg.mgr params g now).tasks =
          mapSet cfg.mgr.tasks params.id (newTask cfg.mgr params g now) from rfl,
        mapGet_mapSet] at hget
      by_cases hk : params.id = p.id
      · rw [if_pos hk] at hget
        cases hget
        have : p.gen < cfg.mgr.nextGen := h2 p hp
        rw [← htg] at this
        exact absurd this (Nat.lt_irrefl _)
      · rw [if_neg hk] at hget
        exact h5 p hp t hget htg
  · rw [createTask_run cfg.mgr params g now f hh]
    refine ⟨keys_mapSet_nodup (keys_mapSet_nodup h1), ?_, ?_, ?_, ?_⟩
    · intro p hp
      rcases List.mem_append.mp hp with h | h
      · exact Nat.lt_succ_of_lt (h2 p h)
      · rw [show ((some (⟨params.id, cfg.mgr.nextGen,
            f params.message⟩ : PendingExec)).toList) =
            [⟨params.id, cfg.mgr.nextGen, f params.message⟩] from rfl,
          List.mem_singleton] at h
        subst h
        exact Nat.lt_succ_self _
    · intro e he
      rcases mem_mapSet he with h | h
      · rcases mem_mapSet h with h' | h'
        · exact Nat.lt_succ_of_lt (h3 e h')
        · subst h'
          exact Nat.lt_succ_self _
      · subst h
        exact Nat.lt_succ_self _
    · rw [show ((some (⟨params.id, cfg.mgr.nextGen,
          f params.message⟩ : PendingExec)).toList) =
          [⟨params.id, cfg.mgr.nextGen, f params.message⟩] from rfl, List.map_append]
      refine List.Nodup.append h4 (List.nodup_singleton _) ?_
      intro a ha hb
      rw [List.map_singleton, List.mem_singleton] at hb
      subst hb
      rcases List.mem_map.mp ha with ⟨q, hq, hqg⟩
      exact absurd (hqg ▸ h2 q hq) (Nat.lt_irrefl _)
    · intro p hp t hget htg
      rw [show (mapSet (afterInsert cfg.mgr params g now).tasks params.id
          { newTask cfg.mgr params g now with status := ⟨.working, now, none⟩ }) =
          mapSet (mapSet cfg.mgr.tasks params.id (newTask cfg.mgr params g now)) params.id
            { newTask cfg.mgr params g now with status := ⟨.working, now, none⟩ } from rfl,
        mapGet_mapSet_mapSet] at hget
      rcases List.mem_append.mp hp with hmem | hmem
      · by_cases hk : params.id = p.id
        · rw [if_pos hk] at hget
          cases hget
          have : p.gen < cfg.mgr.nextGen := h2 p hmem
          rw [← htg] at this
          exact absurd this (Nat.lt_irrefl _)
        · rw [if_neg hk] at hget
          exact h5 p hmem t hget htg
      · rw [show ((some (⟨params.id, cfg.mgr.nextGen,
            f params.message⟩ : PendingExec)).toList) =
            [⟨params.id, cfg.mgr.nextGen, f params.message⟩] from rfl,
          List.mem_singleton] at hmem
        subst hmem
        rw [if_pos rfl] at hget
        cases hget
        exact Or.inl rfl

theorem stepInv_settle {cfg : Config} (hinv : StoreInv cfg) (i now : Nat) :
    StoreInv (stepConfig cfg (.settle i now)).1 := by
  obtain ⟨h1, h2, h3, h4, h5⟩ := hinv
  rcases hp : cfg.pending[i]? with _ | p
  · rw [stepConfig_settle_none hp now]
    exact ⟨h1, h2, h3, h4, h5⟩
  · rw [stepConfig_settle_some hp now]
    have hpmem : p ∈ cfg.pending := List.getElem?_mem hp
    have hsub : List.Sublist (cfg.pending.eraseIdx i) cfg.pending :=
      List.eraseIdx_sublist _ _
    rcases hget : mapGet cfg.mgr.tasks p.id with _ | task
    · rw [show execPhase2 cfg.mgr p now = (cfg.mgr, []) from by simp [execPhase2, hget]]
      exact ⟨h1, fun q hq => h2 q (hsub.subset hq), h3,
        h4.sublist (hsub.map PendingExec.gen),
        fun q hq => h5 q (hsub.subset hq)⟩
    · by_cases hg : task.gen = p.gen
      · obtain ⟨t2, hm, hgen2, hid2, hstate2⟩ := execPhase2_store hget hg now
        rw [hm]
        refine ⟨keys_mapSet_nodup h1, fun q hq => h2 q (hsub.subset hq), ?_,
          h4.sublist (hsub.map PendingExec.gen), ?_⟩
        · intro e he
          rcases mem_mapSet he with h | h
          · exact h3 e h
          · subst h
            exact hgen2 ▸ h3 (p.id, task) (mem_of_mapGet_eq_some hget)
        · intro q hq t hget2 htg
          rw [mapGet_mapSet] at hget2
          by_cases hk : p.id = q.id
          · rw [if_pos hk] at hget2
            cases hget2
            have : q.gen ≠ p.gen := pending_gen_unique h4 hp hq
            rw [← htg, hgen2, hg] at this
            exact absurd rfl this
          · rw [if_neg hk] at hget2
            exact h5 q (hsub.subset hq) t hget2 htg
      · rw [show execPhase2 cfg.mgr p now = (cfg.mgr, []) from by
          simp [execPhase2, hget, hg]]
        exact ⟨h1, fun q hq => h2 q (hsub.subset hq), h3,
          h4.sublist (hsub.map PendingExec.gen),
          fun q hq => h5 q (hsub.subset hq)⟩

theorem stepInv_cancel {cfg : Config} (hinv : StoreInv cfg) (tid : String) (now : Nat) :
    StoreInv (stepConfig cfg (.cancel tid now)).1 := by
  obtain ⟨h1, h2, h3, h4, h5⟩ := hinv
  rw [stepConfig_cancel]
  rcases hget : mapGet cfg.mgr.tasks tid with _ | task
  · rw [cancelTask_not_found hget now]
    exact ⟨h1, h2, h3, h4, h5⟩
  · by_cases hterm : task.status.state = .completed ∨ task.status.state = .failed
    · rw [cancelTask_terminal hget hterm now]
      exact ⟨h1, h2, h3, h4, h5⟩
    · rw [cancelTask_active hget hterm now]
      refine ⟨keys_mapSet_nodup h1, h2, ?_, h4, ?_⟩
      · intro e he
        rcases mem_mapSet he with h | h
        · exact h3 e h
        · subst h
          exact h3 (tid, task) (mem_of_mapGet_eq_some hget)
      · intro q hq t hget2 htg
        rw [mapGet_mapSet] at hget2
        by_cases hk : tid = q.id
        · rw [if_pos hk] at hget2
          cases hget2
          exact Or.inr rfl
        · rw [if_neg hk] at hget2
          exact h5 q hq t hget2 htg

theorem stepInv_sweep {cfg : Config} (hinv : StoreInv cfg) (maxAgeMs now : Nat) :
    StoreInv (stepConfig cfg (.sweep maxAgeMs now)).1 := by
  obtain ⟨h1, h2, h3, h4, h5⟩ := hinv
  have hcl : (cleanup cfg.mgr now maxAgeMs).tasks =
      cfg.mgr.tasks.filter
        (fun e => !decide ((e.2.status.timestamp : Int) < (now : Int) - maxAgeMs)) := by
    simp [cleanup, cleanupEntries_fst]
  refine ⟨?_, h2, ?_, h4, ?_⟩
  · rw [show (stepConfig cfg (.sweep maxAgeMs now)).1.mgr = cleanup cfg.mgr now maxAgeMs
      from rfl, hcl]
    exact h1.sublist ((List.filter_sublist _).map Prod.fst)
  · intro e he
    rw [show (stepConfig cfg (.sweep maxAgeMs now)).1.mgr = cleanup cfg.mgr now maxAgeMs
      from rfl, hcl] at he
    exact h3 e (List.mem_of_mem_filter he)
  · intro q hq t hget htg
    rw [show (stepConfig cfg (.sweep maxAgeMs now)).1.mgr = cleanup cfg.mgr now maxAgeMs
      from rfl, hcl, mapGet_filter h1] at hget
    cases hx : mapGet cfg.mgr.tasks q.id with
    | none =>
      rw [hx] at hget
      cases hget
    | some t0 =>
      rw [hx] at hget
      simp only [Option.some_bind] at hget
      by_cases hkeep : (!decide ((t0.status.timestamp : Int) < (now : Int) - maxAgeMs)) = true
      · rw [if_pos (by simpa using hkeep)] at hget
        obtain rfl : t0 = t := by injection hget
        exact h5 q hq t0 hx htg
      · rw [if_neg (by simpa using hkeep)] at hget
        cases hget

theorem stepInv_setHandler {cfg : Config} (hinv : StoreInv cfg)
    (h : Option HandlerFn) : StoreInv (stepConfig cfg (.setHandler h)).1 := by
  obtain ⟨h1, h2, h3, h4, h5⟩ := hinv
  exact ⟨h1, h2, h3, h4, h5⟩

theorem stepConfig_inv {cfg : Config} (hinv : StoreInv cfg) :
    ∀ s : Step, StoreInv (stepConfig cfg s).1
  | .send params g now => stepInv_send hinv params g now
  | .settle i now => stepInv_settle hinv i now
  | .cancel tid now => stepInv_cancel hinv tid now
  | .sweep maxAgeMs now => stepInv_sweep hinv maxAgeMs now
  | .setHandler h => stepInv_setHandler hinv h

theorem storeInv_reachable {cfg : Config} (h : Reachable cfg) : StoreInv cfg := by
  obtain ⟨tr, rfl⟩ := h
  have hrun : ∀ c : Config, StoreInv c → StoreInv (runTrace c tr) := by
    induction tr with
    | nil => intro c hc; exact hc
    | cons s rest ih =>
      intro c hc
      exact ih _ (stepConfig_inv hc s)
  refine hrun {} ⟨by simp, ?_, ?_, by simp, ?_⟩
  · intro p hp
    simp at hp
  · intro e he
    simp at he
  · intro p hp
    simp at hp

/-- Per-step transition property: any status change a single step performs
on a stored record (same object identity) is either no change, a §4.1
diagram edge, or a last-write-wins overwrite of `canceled`. -/
theorem step_state_change {cfg : Config} (hinv : StoreInv cfg) (s : Step) (k : String)
    (t t2 : Task) (ht : mapGet cfg.mgr.tasks k = some t)
    (ht2 : mapGet (stepConfig cfg s).1.mgr.tasks k = some t2)
    (hgen : t2.gen = t.gen) :
    t2.status.state = t.status.state ∨
      diagramEdge t.status.state t2.status.state = true ∨
      lastWriteWinsEdge t.status.state t2.status.state = true := by
  obtain ⟨h1, h2, h3, h4, h5⟩ := hinv
  cases s with
  | send params g now =>
    rw [stepConfig_send] at ht2
    have htlt : t.gen < cfg.mgr.nextGen := h3 (k, t) (mem_of_mapGet_eq_some ht)
    rcases hh : cfg.mgr.handler with _ | f
    · rw [createTask_eq,
        execPhase1_of_no_handler
          (show (afterInsert cfg.mgr params g now).handler = none from hh)
          params.id now] at ht2
      rw [show (afterInsert cfg.mgr params g now).tasks =
          mapSet cfg.mgr.tasks params.id (newTask cfg.mgr params g now) from rfl,
        mapGet_mapSet] at ht2
      by_cases hk : params.id = k
      · rw [if_pos hk] at ht2
        obtain rfl : newTask cfg.mgr params g now = t2 := by injection ht2
        rw [show (newTask cfg.mgr params g now).gen = cfg.mgr.nextGen from rfl] at hgen
        rw [← hgen] at htlt
        exact absurd htlt (Nat.lt_irrefl _)
      · rw [if_neg hk] at ht2
        rw [ht] at ht2
        obtain rfl : t = t2 := by injection ht2
        exact Or.inl rfl
    · rw [createTask_run cfg.mgr params g now f hh] at ht2
      rw [show (mapSet (afterInsert cfg.mgr params g now).tasks params.id
          { newTask cfg.mgr params g now with status := ⟨.working, now, none⟩ }) =
          mapSet (mapSet cfg.mgr.tasks params.id (newTask cfg.mgr params g now)) params.id
            { newTask cfg.mgr params g now with status := ⟨.working, now, none⟩ } from rfl,
        mapGet_mapSet_mapSet] at ht2
      by_cases hk : params.id = k
      · rw [if_pos hk] at ht2
        obtain rfl : ({ newTask cfg.mgr params g now with
            status := ⟨.working, now, none⟩ } : Task) = t2 := by injection ht2
        rw [show ({ newTask cfg.mgr params g now with
            status := ⟨.working, now, none⟩ } : Task).gen = cfg.mgr.nextGen from rfl] at hgen
        rw [← hgen] at htlt
        exact absurd htlt (Nat.lt_irrefl _)
      · rw [if_neg hk] at ht2
        rw [ht] at ht2
        obtain rfl : t = t2 := by injection ht2
        exact Or.inl rfl
  | settle i now =>
    rcases hp : cfg.pending[i]? with _ | p
    · rw [stepConfig_settle_none hp now] at ht2
      rw [ht] at ht2
      obtain rfl : t = t2 := by injection ht2
      exact Or.inl rfl
    · rw [stepConfig_settle_some hp now] at ht2
      have hpmem : p ∈ cfg.pending := List.getElem?_mem hp
      cases hget : mapGet cfg.mgr.tasks p.id with
      | none =>
        rw [show execPhase2 cfg.mgr p now = (cfg.mgr, []) from by
          simp [execPhase2, hget]] at ht2
        rw [ht] at ht2
        obtain rfl : t = t2 := by injection ht2
        exact Or.inl rfl
      | some task =>
        by_cases hg : task.gen = p.gen
        · obtain ⟨t3, hm, hgen3, hid3, hstate3⟩ := execPhase2_store hget hg now
          rw [hm] at ht2
          rw [show ({ cfg.mgr with
              tasks := mapSet cfg.mgr.tasks p.id t3 } : TaskManager).tasks =
              mapSet cfg.mgr.tasks p.id t3 from rfl, mapGet_mapSet] at ht2
          by_cases hk : p.id = k
          · rw [if_pos hk] at ht2
            obtain rfl : t3 = t2 := by injection ht2
            have htask : t = task := by
              rw [← hk] at ht
              rw [ht] at hget
              injection hget
            subst htask
            rcases h5 p hpmem t hget hg with hold | hold <;> rcases hstate3 with hnew | hnew
            · exact Or.inr (Or.inl (by rw [hold, hnew]; rfl))
            · exact Or.inr (Or.inl (by rw [hold, hnew]; rfl))
            · exact Or.inr (Or.inr (by rw [hold, hnew]; rfl))
            · exact Or.inr (Or.inr (by rw [hold, hnew]; rfl))
          · rw [if_neg hk] at ht2
            rw [ht] at ht2
            obtain rfl : t = t2 := by injection ht2
            exact Or.inl rfl
        · rw [show execPhase2 cfg.mgr p now = (cfg.mgr, []) from by
            simp [execPhase2, hget, hg]] at ht2
          rw [ht] at ht2
          obtain rfl : t = t2 := by injection ht2
          exact Or.inl rfl
  | cancel tid now =>
    rw [stepConfig_cancel] at ht2
    cases hget : mapGet cfg.mgr.tasks tid with
    | none =>
      rw [cancelTask_not_found hget now] at ht2
      rw [ht] at ht2
      obtain rfl : t = t2 := by injection ht2
      exact Or.inl rfl
    | some task =>
      by_cases hterm : task.status.state = .completed ∨ task.status.state = .failed
      · rw [cancelTask_terminal hget hterm now] at ht2
        rw [ht] at ht2
        obtain rfl : t = t2 := by injection ht2
        exact Or.inl rfl
      · rw [cancelTask_active hget hterm now] at ht2
        rw [show ({ cfg.mgr with
            tasks := mapSet cfg.mgr.tasks tid
              { task with status := ⟨.canceled, now, none⟩ } } : TaskManager).tasks =
            mapSet cfg.mgr.tasks tid
              { task with status := ⟨.canceled, now, none⟩ } from rfl,
          mapGet_mapSet] at ht2
        by_cases hk : tid = k
        · rw [if_pos hk] at ht2
          obtain rfl : ({ task with status := ⟨.canceled, now, none⟩ } : Task) = t2 := by
            injection ht2
          have htask : t = task := by
            rw [← hk] at ht
            rw [ht] at hget
            injection hget
          subst htask
          cases hstate : t.status.state with
          | submitted => exact Or.inr (Or.inl rfl)
          | working => exact Or.inr (Or.inl rfl)
          | canceled => exact Or.inl rfl
          | completed => exact absurd (Or.inl hstate) hterm
          | failed => exact absurd (Or.inr hstate) hterm
        · rw [if_neg hk] at ht2
          rw [ht] at ht2
          obtain rfl : t = t2 := by injection ht2
          exact Or.inl rfl
  | sweep maxAgeMs now =>
    rw [show (stepConfig cfg (.sweep maxAgeMs now)).1.mgr = cleanup cfg.mgr now maxAgeMs
        from rfl,
      show (cleanup cfg.mgr now maxAgeMs).tasks =
        cfg.mgr.tasks.filter
          (fun e => !decide ((e.2.status.timestamp : Int) < (now : Int) - maxAgeMs)) from by
        simp [cleanup, cleanupEntries_fst],
      mapGet_filter h1, ht] at ht2
    simp only [Option.some_bind] at ht2
    by_cases hkeep : (!decide ((t.status.timestamp : Int) < (now : Int) - maxAgeMs)) = true
    · rw [if_pos (by simpa using hkeep)] at ht2
      obtain rfl : t = t2 := by injection ht2
      exact Or.inl rfl
    · rw [if_neg (by simpa using hkeep)] at ht2
      cases ht2
  | setHandler h =>
    rw [show (stepConfig cfg (.setHandler h)).1.mgr.tasks = cfg.mgr.tasks from rfl,
      ht] at ht2
    obtain rfl : t = t2 := by injection ht2
    exact Or.inl rfl

/-- C3 counterexample.  The claim forbids every transition out of a
terminal state, but the code performs `canceled → completed`: create a
task (whose execution suspends at the handler await), cancel it
(`working → canceled`), then let the handler resolve — `executeTask`'s
continuation unconditionally overwrites the record with `completed`.
The final conjuncts note that it is the same record (same identity tag)
and that this edge is outside the §4.1 diagram. -/
theorem canceled_then_completed_counterexample :
    ((mapGet ((stepConfig (runTrace {}
        [.setHandler (some hOk), .send ⟨"t1", none, msgHi⟩ "s1" 0])
        (.cancel "t1" 1)).1.mgr.tasks) "t1").map (fun t => t.status.state) =
      some .canceled) ∧
    ((mapGet ((stepConfig (stepConfig (runTrace {}
        [.setHandler (some hOk), .send ⟨"t1", none, msgHi⟩ "s1" 0])
        (.cancel "t1" 1)).1 (.settle 0 2)).1.mgr.tasks) "t1").map
      (fun t => t.status.state) = some .completed) ∧
    ((mapGet ((stepConfig (runTrace {}
        [.setHandler (some hOk), .send ⟨"t1", none, msgHi⟩ "s1" 0])
        (.cancel "t1" 1)).1.mgr.tasks) "t1").map Task.gen =
      (mapGet ((stepConfig (stepConfig (runTrace {}
        [.setHandler (some hOk), .send ⟨"t1", none, msgHi⟩ "s1" 0])
        (.cancel "t1" 1)).1 (.settle 0 2)).1.mgr.tasks) "t1").map Task.gen) ∧
    diagramEdge .canceled .completed = false ∧
    lastWriteWinsEdge .canceled .completed = true := by
  refine ⟨rfl, rfl, rfl, rfl, rfl⟩

/-- C3 (amended).  Every task starts at `submitted` (the record is
constructed `submitted` and the first event emitted for it is a status
event carrying that snapshot), and every status change any operation
performs on a stored record (same object identity) is either a §4.1
diagram edge or one of the two last-write-wins overwrites the source
actually allows: an execution already in flight when the task was
canceled later rewrites `canceled` to `completed` (handler resolved) or
`failed` (handler rejected).  No operation ever changes a record out of
`completed` or `failed`. -/
theorem lifecycle_transitions :
    (∀ (m : TaskManager) (params : TaskSendParams) (g : String) (now : Nat),
      (createTask m params g now).2.1.status.state = .submitted ∧
      (createTask m params g now).2.2.1.head? =
        some (statusEvent (createTask m params g now).2.1)) ∧
    (∀ cfg : Config, Reachable cfg → ∀ (s : Step) (k : String) (t t2 : Task),
      mapGet cfg.mgr.tasks k = some t →
      mapGet (stepConfig cfg s).1.mgr.tasks k = some t2 →
      t2.gen = t.gen →
      (t2.status.state = t.status.state ∨
        diagramEdge t.status.state t2.status.state = true ∨
        lastWriteWinsEdge t.status.state t2.status.state = true)) := by
  constructor
  · intro m params g now
    rw [createTask_eq]
    exact ⟨rfl, rfl⟩
  · intro cfg hreach s k t t2 ht ht2 hgen
    exact step_state_change (storeInv_reachable hreach) s k t t2 ht ht2 hgen

/-- Witness for `lifecycle_transitions`: cancelling the freshly created
(still `submitted`, no handler registered) task `t1` in a concrete
reachable configuration is a diagram edge. -/
theorem lifecycle_transitions_witness :
    TaskState.canceled = TaskState.submitted ∨
      diagramEdge .submitted .canceled = true ∨
      lastWriteWinsEdge .submitted .canceled = true := by
  have h0 := (lifecycle_transitions.1 ({} : TaskManager) ⟨"t1", none, msgHi⟩ "s" 0).1
  have h := lifecycle_transitions.2
    (runTrace {} [.send ⟨"t1", none, msgHi⟩ "s" 0])
    ⟨[.send ⟨"t1", none, msgHi⟩ "s" 0], rfl⟩
    (.cancel "t1" 1) "t1"
    (newTask {} ⟨"t1", none, msgHi⟩ "s" 0)
    { newTask {} ⟨"t1", none, msgHi⟩ "s" 0 with status := ⟨.canceled, 1, none⟩ }
    rfl rfl rfl
  exact h

theorem handleTaskSend_eq (m : TaskManager) (params : TaskSendParams) (g : String)
    (now : Nat) :
    handleTaskSend m params g now =
      ((createTask m params g now).1, (createTask m params g now).2.2.1,
       (createTask m params g now).2.2.2,
       { result := (mapGet (createTask m params g now).1.tasks params.id).map .task }) := by
  rcases h : createTask m params g now with ⟨m2, task, evs, pend⟩
  simp [handleTaskSend, h]

/-- C4 counterexample.  With a handler registered (the normal operating
mode the claim itself assumes), the task carried by the `tasks/send`
response is already `working`, not `submitted`: the response holds a
reference to the stored record, and `executeTask` runs synchronously up
to its first await before the response is formed. -/
theorem tasks_send_not_submitted_counterexample :
    (handleTaskSend ({ handler := some hOk } : TaskManager)
        ⟨"t1", none, msgHi⟩ "s" 0).2.2.2 =
      { result := some (.task
          { id := "t1"
            sessionId := "s"
            status := ⟨.working, 0, none⟩
            artifacts := []
            history := [msgHi]
            gen := 0 }) } ∧
    (TaskState.working = TaskState.submitted → False) := by
  exact ⟨rfl, by decide⟩

/-- C4 (amended).  A valid `tasks/send` always receives a success
envelope (never an error), carrying the created task with `id = params.id`
and `history = [message]`; but the carried task reflects the synchronous
start of execution: its state is `submitted` only when no handler is
registered, and `working` when one is (a terminal state may even be
visible by serialization time if the handler settles first).  The
response does not depend on the handler's eventual outcome — handler
failures are never thrown back through `tasks/send`. -/
theorem tasks_send_response (m : TaskManager) (params : TaskSendParams) (g : String)
    (now : Nat) :
    (handleTaskSend m params g now).2.2.2.error = none ∧
    (∃ t : Task, (handleTaskSend m params g now).2.2.2.result = some (.task t) ∧
      t.id = params.id ∧ t.history = [params.message] ∧
      (m.handler = none → t.status.state = .submitted) ∧
      (∀ f : HandlerFn, m.handler = some f → t.status.state = .working)) ∧
    (∀ f1 f2 : HandlerFn,
      (handleTaskSend { m with handler := some f1 } params g now).2.2.2 =
        (handleTaskSend { m with handler := some f2 } params g now).2.2.2) := by
  refine ⟨by rw [handleTaskSend_eq], ?_, ?_⟩
  · rcases hh : m.handler with _ | f
    · refine ⟨newTask m params g now, ?_, rfl, rfl, fun _ => rfl, ?_⟩
      · rw [handleTaskSend_eq, createTask_eq,
          execPhase1_of_no_handler
            (show (afterInsert m params g now).handler = none from hh) params.id now]
        simp only
        rw [show (afterInsert m params g now).tasks =
            mapSet m.tasks params.id (newTask m params g now) from rfl, mapGet_mapSet,
          if_pos rfl]
        rfl
      · intro f hf
        exact absurd hf (by simp)
    · refine ⟨{ newTask m params g now with status := ⟨.working, now, none⟩ }, ?_,
        rfl, rfl, ?_, fun _ _ => rfl⟩
      · rw [handleTaskSend_eq, createTask_run m params g now f hh]
        simp only
        rw [show (mapSet (afterInsert m params g now).tasks params.id
            { newTask m params g now with status := ⟨.working, now, none⟩ }) =
            mapSet (mapSet m.tasks params.id (newTask m params g now)) params.id
              { newTask m params g now with status := ⟨.working, now, none⟩ } from rfl,
          mapGet_mapSet_mapSet, if_pos rfl]
        rfl
      · intro hnone
        exact absurd hnone (by simp)
  · intro f1 f2
    rw [handleTaskSend_eq, handleTaskSend_eq,
      createTask_run { m with handler := some f1 } params g now f1 rfl,
      createTask_run { m with handler := some f2 } params g now f2 rfl]
    rfl

/-- Witness for `tasks_send_response`: concrete calls with and without a
registered handler. -/
theorem tasks_send_response_witness :
    (handleTaskSend ({ handler := some hOk } : TaskManager)
        ⟨"t1", none, msgHi⟩ "s" 0).2.2.2.error = none ∧
    (handleTaskSend ({} : TaskManager) ⟨"t2", none, msgHi⟩ "s" 0).2.2.2.error = none := by
  have h1 := (tasks_send_response { handler := some hOk } ⟨"t1", none, msgHi⟩ "s" 0).1
  have h2 := (tasks_send_response {} ⟨"t2", none, msgHi⟩ "s" 0).1
  exact ⟨h1, h2⟩

/-! ## listTasks: functional characterization and pagination lemmas -/

/-- The per-entry selection the `listTasks` loop applies to an
insertion-order entry: skip a falsy (empty) id, look the record up, apply
the optional state filter. -/
def pageFilter (m : TaskManager) (state? : Option TaskState) (tid : String) : Option Task :=
  if tid = "" then none
  else (mapGet m.tasks tid).bind (fun t => if stateMatches state? t then some t else none)

theorem pageFilter_eq_some {m : TaskManager} {state? : Option TaskState} {tid : String}
    {t : Task} : pageFilter m state? tid = some t ↔
      tid ≠ "" ∧ mapGet m.tasks tid = some t ∧ stateMatches state? t = true := by
  unfold pageFilter
  by_cases h0 : tid = ""
  · simp [h0]
  · rw [if_neg h0]
    cases hx : mapGet m.tasks tid with
    | none => simp [h0]
    | some t0 =>
      simp only [Option.some_bind]
      by_cases hs : stateMatches state? t0 = true
      · rw [if_pos hs]
        constructor
        · intro h
          injection h with h
          subst h
          exact ⟨h0, rfl, hs⟩
        · rintro ⟨-, h2, -⟩
          exact h2
      · rw [if_neg hs]
        constructor
        · intro h
          cases h
        · rintro ⟨-, h2, h3⟩
          injection h2 with h2
          subst h2
          exact absurd h3 hs

/-- The `listTasks` collection loop computes a take of a filterMap. -/
theorem collectTasks_eq (m : TaskManager) (state? : Option TaskState) :
    ∀ (ids : List String) (limit : Nat),
      collectTasks m state? ids limit =
        (ids.filterMap (pageFilter m state?)).take limit := by
  intro ids
  induction ids with
  | nil => intro limit; cases limit <;> simp [collectTasks]
  | cons tid rest ih =>
    intro limit
    cases limit with
    | zero => simp [collectTasks]
    | succ b =>
      by_cases h0 : tid = ""
      · simp [collectTasks, h0, pageFilter, ih]
      · cases hx : mapGet m.tasks tid with
        | none => simp [collectTasks, h0, hx, pageFilter, ih]
        | some t =>
          by_cases hs : stateMatches state? t = true
          · simp [collectTasks, h0, hx, hs, pageFilter, ih]
          · simp [collectTasks, h0, hx, hs, pageFilter, ih]

theorem listTasks_tasks (m : TaskManager) (params : TaskListParams) :
    (listTasks m params).tasks =
      ((m.taskOrder.drop (listStart m params.cursor)).filterMap
        (pageFilter m params.state)).take (params.limit.getD 50) := by
  simp only [listTasks]
  rw [collectTasks_eq]

theorem listTasks_hasMore (m : TaskManager) (params : TaskListParams) :
    (listTasks m params).hasMore =
      decide (0 ≤ lastIdx m ((listTasks m params).tasks.getLast?.map (fun t => t.id)) ∧
        lastIdx m ((listTasks m params).tasks.getLast?.map (fun t => t.id)) <
          (m.taskOrder.length : Int) - 1) := rfl

theorem listTasks_nextCursor (m : TaskManager) (params : TaskListParams) :
    (listTasks m params).nextCursor =
      if (0 ≤ lastIdx m ((listTasks m params).tasks.getLast?.map (fun t => t.id)) ∧
          lastIdx m ((listTasks m params).tasks.getLast?.map (fun t => t.id)) <
            (m.taskOrder.length : Int) - 1) ∧
          ((listTasks m params).tasks.getLast?.map (fun t => t.id)).isSome then
        (listTasks m params).tasks.getLast?.map (fun t => t.id)
      else none := rfl

/-- Store coherence: distinct insertion order matching the map's keys,
records that carry their own key as `id`, distinct keys. -/
def WF (m : TaskManager) : Prop :=
  m.taskOrder.Nodup ∧
  (∀ k : String, k ∈ m.taskOrder ↔ (mapGet m.tasks k).isSome) ∧
  (∀ (k : String) (t : Task), mapGet m.tasks k = some t → t.id = k) ∧
  ((m.tasks.map Prod.fst).Nodup)

theorem mapGet_eq_some_of_mem {l : List (String × Task)}
    (hn : (l.map Prod.fst).Nodup) {k : String} {t : Task} (h : (k, t) ∈ l) :
    mapGet l k = some t := by
  induction l with
  | nil => cases h
  | cons e rest ih =>
    obtain ⟨k0, t0⟩ := e
    have hk0 : k0 ∉ rest.map Prod.fst := (List.nodup_cons.mp hn).1
    rcases List.mem_cons.mp h with h1 | h1
    · injection h1 with h1a h1b
      subst h1a
      subst h1b
      simp [mapGet]
    · by_cases he : k0 = k
      · subst he
        exact absurd (List.mem_map_of_mem Prod.fst h1) hk0
      · rw [show mapGet ((k0, t0) :: rest) k = mapGet rest k from by simp [mapGet, he]]
        exact ih (List.nodup_cons.mp hn).2 h1

/-! ### idxOf? lemmas -/

theorem idxOf?_isSome_iff (x : String) :
    ∀ l : List String, (idxOf? l x).isSome = true ↔ x ∈ l := by
  intro l
  induction l with
  | nil => simp [idxOf?]
  | cons y rest ih =>
    by_cases h : y = x
    · simp [idxOf?, h]
    · rw [show idxOf? (y :: rest) x = (idxOf? rest x).map (· + 1) from by
        simp [idxOf?, h]]
      have hmap : ((idxOf? rest x).map (· + 1)).isSome = (idxOf? rest x).isSome := by
        cases idxOf? rest x <;> rfl
      rw [hmap, ih, List.mem_cons]
      constructor
      · exact Or.inr
      · rintro (hs | hs)
        · exact absurd hs.symm h
        · exact hs

theorem idxOf?_bound {x : String} :
    ∀ {l : List String} {i : Nat}, idxOf? l x = some i → i < l.length := by
  intro l
  induction l with
  | nil => intro i h; simp [idxOf?] at h
  | cons y rest ih =>
    intro i h
    by_cases hy : y = x
    · rw [show idxOf? (y :: rest) x = some 0 from by simp [idxOf?, hy]] at h
      injection h with h
      subst h
      simp
    · rw [show idxOf? (y :: rest) x = (idxOf? rest x).map (· + 1) from by
        simp [idxOf?, hy]] at h
      cases hx : idxOf? rest x with
      | none => rw [hx] at h; cases h
      | some j =>
        rw [hx] at h
        injection h with h
        subst h
        have := ih hx
        simp only [List.length_cons]
        omega

theorem idxOf?_of_getElem {l : List String} (hn : l.Nodup) :
    ∀ {i : Nat} {x : String}, l[i]? = some x → idxOf? l x = some i := by
  induction l with
  | nil => intro i x h; simp at h
  | cons y rest ih =>
    intro i x h
    have hhead : y ∉ rest := (List.nodup_cons.mp hn).1
    cases i with
    | zero =>
      rw [List.getElem?_cons_zero] at h
      injection h with h
      subst h
      simp [idxOf?]
    | succ i =>
      rw [List.getElem?_cons_succ] at h
      have hxmem : x ∈ rest := List.getElem?_mem h
      have hxy : ¬ y = x := fun he => hhead (he ▸ hxmem)
      rw [show idxOf? (y :: rest) x = (idxOf? rest x).map (· + 1) from by
        simp [idxOf?, hxy]]
      rw [ih (List.nodup_cons.mp hn).2 h]
      rfl

/-- In a duplicate-free list, a two-element sublist pins down two strictly
ordered positions. -/
theorem pair_sublist_idx :
    ∀ {l : List String}, l.Nodup → ∀ {a b : String}, List.Sublist [a, b] l →
      ∃ i j, idxOf? l a = some i ∧ idxOf? l b = some j ∧ i < j ∧ j < l.length := by
  intro l
  induction l with
  | nil =>
    intro _ a b h
    cases List.sublist_nil.mp h
  | cons y rest ih =>
    intro hn a b h
    have hhead : y ∉ rest := (List.nodup_cons.mp hn).1
    have htail : rest.Nodup := (List.nodup_cons.mp hn).2
    cases h with
    | cons _ h2 =>
      obtain ⟨i, j, hi, hj, hij, hjl⟩ := ih htail h2
      have hamem : a ∈ rest := h2.subset (by simp)
      have hbmem : b ∈ rest := h2.subset (by simp)
      have hya : ¬ y = a := fun he => hhead (he ▸ hamem)
      have hyb : ¬ y = b := fun he => hhead (he ▸ hbmem)
      refine ⟨i + 1, j + 1, ?_, ?_, by omega, by simp; omega⟩
      · rw [show idxOf? (y :: rest) a = (idxOf? rest a).map (· + 1) from by
          simp [idxOf?, hya], hi]
        rfl
      · rw [show idxOf? (y :: rest) b = (idxOf? rest b).map (· + 1) from by
          simp [idxOf?, hyb], hj]
        rfl
    | cons₂ _ h2 =>
      have hbmem : b ∈ rest := h2.subset (by simp)
      have hyb : ¬ y = b := fun he => hhead (he ▸ hbmem)
      obtain ⟨j, hj⟩ := Option.isSome_iff_exists.mp ((idxOf?_isSome_iff b rest).mpr hbmem)
      refine ⟨0, j + 1, by simp [idxOf?], ?_, by omega, ?_⟩
      · rw [show idxOf? (y :: rest) b = (idxOf? rest b).map (· + 1) from by
          simp [idxOf?, hyb], hj]
        rfl
      · have := idxOf?_bound hj
        simp
        omega

/-! ### filterMap helpers -/

theorem filterMap_pageFilter_map_id {m : TaskManager}
    (hid : ∀ (k : String) (t : Task), mapGet m.tasks k = some t → t.id = k)
    (state? : Option TaskState) :
    ∀ ids : List String,
      (ids.filterMap (pageFilter m state?)).map (fun t => t.id) =
        ids.filterMap
          (fun tid => if (pageFilter m state? tid).isSome then some tid else none) := by
  intro ids
  induction ids with
  | nil => simp
  | cons tid rest ih =>
    cases hpf : pageFilter m state? tid with
    | none => simp [hpf, ih]
    | some t =>
      have : t.id = tid := hid tid t (pageFilter_eq_some.mp hpf).2.1
      simp [hpf, ih, this]

theorem filterMap_guard_sublist (p : String → Bool) :
    ∀ l : List String,
      List.Sublist (l.filterMap (fun tid => if p tid then some tid else none)) l := by
  intro l
  induction l with
  | nil => simp
  | cons x rest ih =>
    by_cases h : p x
    · rw [show (x :: rest).filterMap (fun tid => if p tid then some tid else none) =
        x :: rest.filterMap (fun tid => if p tid then some tid else none) from by
          simp [h]]
      exact ih.cons₂ x
    · rw [show (x :: rest).filterMap (fun tid => if p tid then some tid else none) =
        rest.filterMap (fun tid => if p tid then some tid else none) from by
          simp [h]]
      exact ih.cons x

theorem filterMap_guard_of_all (p : String → Bool) :
    ∀ l : List String, (∀ x ∈ l, p x = true) →
      l.filterMap (fun tid => if p tid then some tid else none) = l := by
  intro l
  induction l with
  | nil => intro _; simp
  | cons x rest ih =>
    intro hall
    have hx : p x = true := hall x (List.mem_cons_self _ _)
    rw [show (x :: rest).filterMap (fun tid => if p tid then some tid else none) =
      x :: rest.filterMap (fun tid => if p tid then some tid else none) from by
        simp [hx]]
    rw [ih (fun y hy => hall y (List.mem_cons_of_mem _ hy))]

theorem filterMap_length_of_all_isSome {f : String → Option Task} :
    ∀ l : List String, (∀ x ∈ l, (f x).isSome = true) →
      (l.filterMap f).length = l.length := by
  intro l
  induction l with
  | nil => intro _; simp
  | cons x rest ih =>
    intro hall
    obtain ⟨t, ht⟩ := Option.isSome_iff_exists.mp (hall x (List.mem_cons_self _ _))
    rw [show (x :: rest).filterMap f = t :: rest.filterMap f from by simp [ht]]
    simp [ih (fun y hy => hall y (List.mem_cons_of_mem _ hy))]

theorem mem_filterMap_pageFilter {m : TaskManager} {state? : Option TaskState}
    {ids : List String} {t : Task} (h : t ∈ ids.filterMap (pageFilter m state?)) :
    ∃ tid ∈ ids, tid ≠ "" ∧ mapGet m.tasks tid = some t ∧
      stateMatches state? t = true := by
  obtain ⟨tid, hmem, hpf⟩ := List.mem_filterMap.mp h
  obtain ⟨h1, h2, h3⟩ := pageFilter_eq_some.mp hpf
  exact ⟨tid, hmem, h1, h2, h3⟩

/-! ## WF preservation -/

theorem cleanupEntries_snd_nodup (cutoff : Int) :
    ∀ (l : List (String × Task)) (ord : List String), ord.Nodup →
      ((cleanupEntries cutoff l ord).2).Nodup := by
  intro l
  induction l with
  | nil => intro ord h; simpa [cleanupEntries] using h
  | cons e rest ih =>
    obtain ⟨k, t⟩ := e
    intro ord h
    by_cases hrm : (t.status.timestamp : Int) < cutoff
    · rw [cleanupEntries, if_pos hrm]
      exact ih (ord.erase k) (h.erase k)
    · rw [cleanupEntries, if_neg hrm]
      rcases hc : cleanupEntries cutoff rest ord with ⟨r, o⟩
      have := ih ord h
      rw [hc] at this
      simpa using this

theorem wf_mapSet_existing {m : TaskManager} (hwf : WF m) {k : String} {told tnew : Task}
    (hget : mapGet m.tasks k = some told) (hid : tnew.id = k) :
    ∀ m2 : TaskManager, m2.tasks = mapSet m.tasks k tnew →
      m2.taskOrder = m.taskOrder → WF m2 := by
  obtain ⟨hnodup, hmem, hids, hkeys⟩ := hwf
  intro m2 htasks horder
  refine ⟨horder ▸ hnodup, ?_, ?_, ?_⟩
  · intro k2
    rw [horder, htasks, mapGet_mapSet]
    by_cases hk : k = k2
    · subst hk
      simp [hmem k, hget]
    · rw [if_neg hk]
      exact hmem k2
  · intro k2 t ht
    rw [htasks, mapGet_mapSet] at ht
    by_cases hk : k = k2
    · rw [if_pos hk] at ht
      injection ht with ht
      subst ht
      exact hk ▸ hid
    · rw [if_neg hk] at ht
      exact hids k2 t ht
  · rw [htasks]
    exact keys_mapSet_nodup hkeys

theorem wf_insert_fresh {m : TaskManager} (hwf : WF m) {k : String} {t : Task}
    (hid : t.id = k) (hfresh : k ∉ m.taskOrder) :
    ∀ m2 : TaskManager, m2.tasks = mapSet m.tasks k t →
      m2.taskOrder = m.taskOrder ++ [k] → WF m2 := by
  obtain ⟨hnodup, hmem, hids, hkeys⟩ := hwf
  intro m2 htasks horder
  refine ⟨?_, ?_, ?_, ?_⟩
  · rw [horder]
    refine List.Nodup.append hnodup (List.nodup_singleton k) ?_
    intro a ha hb
    rw [List.mem_singleton] at hb
    exact hfresh (hb ▸ ha)
  · intro k2
    rw [horder, htasks, mapGet_mapSet, List.mem_append, List.mem_singleton]
    by_cases hk : k = k2
    · subst hk
      simp
    · rw [if_neg hk]
      constructor
      · rintro (h | h)
        · exact (hmem k2).mp h
        · exact absurd h.symm hk
      · intro h
        exact Or.inl ((hmem k2).mpr h)
  · intro k2 t2 ht
    rw [htasks, mapGet_mapSet] at ht
    by_cases hk : k = k2
    · rw [if_pos hk] at ht
      injection ht with ht
      subst ht
      exact hk ▸ hid
    · rw [if_neg hk] at ht
      exact hids k2 t2 ht
  · rw [htasks]
    exact keys_mapSet_nodup hkeys

theorem wf_createTask {m : TaskManager} (hwf : WF m) (params : TaskSendParams)
    (g : String) (now : Nat) (hfresh : params.id ∉ m.taskOrder) :
    WF (createTask m params g now).1 := by
  have hwf1 : WF (afterInsert m params g now) :=
    wf_insert_fresh hwf (t := newTask m params g now) rfl hfresh
      (afterInsert m params g now) rfl rfl
  rcases hh : m.handler with _ | f
  · rw [createTask_eq,
      execPhase1_of_no_handler
        (show (afterInsert m params g now).handler = none from hh) params.id now]
    exact hwf1
  · rw [createTask_run m params g now f hh]
    exact wf_mapSet_existing hwf1 (mapGet_afterInsert_self m params g now)
      (show ({ newTask m params g now with
          status := ⟨.working, now, none⟩ } : Task).id = params.id from rfl)
      _ rfl rfl

theorem wf_cancelTask {m : TaskManager} (hwf : WF m) (tid : String) (now : Nat) :
    WF (cancelTask m tid now).1 := by
  cases hget : mapGet m.tasks tid with
  | none => rw [cancelTask_not_found hget now]; exact hwf
  | some task =>
    by_cases hterm : task.status.state = .completed ∨ task.status.state = .failed
    · rw [cancelTask_terminal hget hterm now]
      exact hwf
    · rw [cancelTask_active hget hterm now]
      exact wf_mapSet_existing hwf hget
        (show ({ task with status := ⟨.canceled, now, none⟩ } : Task).id = tid from
          hwf.2.2.1 tid task hget)
        _ rfl rfl

theorem wf_execPhase2 {m : TaskManager} (hwf : WF m) (p : PendingExec) (now : Nat) :
    WF (execPhase2 m p now).1 := by
  cases hget : mapGet m.tasks p.id with
  | none =>
    rw [show execPhase2 m p now = (m, []) from by simp [execPhase2, hget]]
    exact hwf
  | some task =>
    by_cases hg : task.gen = p.gen
    · obtain ⟨t2, hm, -, hid2, -⟩ := execPhase2_store hget hg now
      rw [hm]
      exact wf_mapSet_existing hwf hget
        (show t2.id = p.id from hid2.trans (hwf.2.2.1 p.id task hget)) _ rfl rfl
    · rw [show execPhase2 m p now = (m, []) from by simp [execPhase2, hget, hg]]
      exact hwf

theorem wf_cleanup {m : TaskManager} (hwf : WF m) (now maxAgeMs : Nat) :
    WF (cleanup m now maxAgeMs) := by
  obtain ⟨hnodup, hmem, hids, hkeys⟩ := hwf
  have hcl : (cleanup m now maxAgeMs).tasks =
      m.tasks.filter
        (fun e => !decide ((e.2.status.timestamp : Int) < (now : Int) - maxAgeMs)) := by
    simp [cleanup, cleanupEntries_fst]
  have horder : (cleanup m now maxAgeMs).taskOrder =
      (cleanupEntries ((now : Int) - maxAgeMs) m.tasks m.taskOrder).2 := rfl
  refine ⟨?_, ?_, ?_, ?_⟩
  · rw [horder]
    exact cleanupEntries_snd_nodup _ m.tasks m.taskOrder hnodup
  · intro k
    rw [horder, cleanupEntries_snd_mem _ m.tasks m.taskOrder hnodup hkeys k,
      hcl, mapGet_filter hkeys]
    cases hx : mapGet m.tasks k with
    | none =>
      simp only [Option.none_bind, Option.isSome_none]
      constructor
      · rintro ⟨hk, -⟩
        have := (hmem k).mp hk
        rw [hx] at this
        cases this
      · intro h
        cases h
    | some t0 =>
      have hkm : k ∈ m.taskOrder := (hmem k).mpr (by simp [hx])
      simp only [Option.some_bind]
      constructor
      · rintro ⟨-, hall⟩
        have := hall t0 (mem_of_mapGet_eq_some hx)
        rw [if_pos (by simpa using this)]
        rfl
      · intro hsome
        refine ⟨hkm, ?_⟩
        intro t ht hlt
        have : mapGet m.tasks k = some t := mapGet_eq_some_of_mem hkeys ht
        rw [hx] at this
        injection this with this
        subst this
        rw [if_neg (by simp [hlt])] at hsome
        cases hsome
  · intro k t ht
    rw [hcl, mapGet_filter hkeys] at ht
    cases hx : mapGet m.tasks k with
    | none => rw [hx] at ht; cases ht
    | some t0 =>
      rw [hx] at ht
      simp only [Option.some_bind] at ht
      by_cases hp : (!decide ((t0.status.timestamp : Int) < (now : Int) - maxAgeMs)) = true
      · rw [if_pos (by simpa using hp)] at ht
        injection ht with ht
        subst ht
        exact hids k t0 hx
      · rw [if_neg (by simpa using hp)] at ht
        cases ht
  · rw [hcl]
    exact hkeys.sublist ((List.filter_sublist _).map Prod.fst)

theorem wf_empty : WF {} := by
  refine ⟨List.nodup_nil, ?_, ?_, List.nodup_nil⟩
  · intro k
    simp [mapGet]
  · intro k t h
    simp [mapGet] at h

/-- When more matching tasks remain beyond the returned page, `hasMore`
comes back `true` and `nextCursor` is the last returned task's id. -/
theorem listTasks_more_hasMore {m : TaskManager} {params : TaskListParams}
    (hwf : WF m) (hL : 1 ≤ params.limit.getD 50)
    (hmore : params.limit.getD 50 <
      ((m.taskOrder.drop (listStart m params.cursor)).filterMap
        (pageFilter m params.state)).length) :
    (listTasks m params).hasMore = true ∧
    (listTasks m params).nextCursor =
      (listTasks m params).tasks.getLast?.map (fun t => t.id) ∧
    ((listTasks m params).tasks.getLast?.map (fun t => t.id)).isSome = true := by
  obtain ⟨hnodup, hmem, hid, hkeys⟩ := hwf
  set L := params.limit.getD 50 with hLdef
  set full := (m.taskOrder.drop (listStart m params.cursor)).filterMap
    (pageFilter m params.state) with hFull
  have htasks : (listTasks m params).tasks = full.take L := listTasks_tasks m params
  have hlen : (listTasks m params).tasks.length = L := by
    rw [htasks, List.length_take]
    omega
  have htne : (listTasks m params).tasks ≠ [] := by
    intro h
    rw [h] at hlen
    simp at hlen
    omega
  have hlastEq : (listTasks m params).tasks.getLast? =
      some ((listTasks m params).tasks.getLast htne) :=
    List.getLast?_eq_getLast _ htne
  set last := (listTasks m params).tasks.getLast htne with hlastDef
  have hlast_mem_full : last ∈ full := by
    have h1 : last ∈ (listTasks m params).tasks := List.getLast_mem htne
    rw [htasks] at h1
    exact (List.take_sublist L full).subset h1
  obtain ⟨tidl, -, htne2, hlget, -⟩ := mem_filterMap_pageFilter hlast_mem_full
  have hlast_id : last.id = tidl := hid tidl last hlget
  have hlast_id_ne : last.id ≠ "" := by
    rw [hlast_id]
    exact htne2
  have hdropne : full.drop L ≠ [] := by
    intro h
    have := congrArg List.length h
    rw [List.length_drop] at this
    simp at this
    omega
  obtain ⟨r, tail, hrt⟩ : ∃ r tail, full.drop L = r :: tail := by
    cases hc : full.drop L with
    | nil => exact absurd hc hdropne
    | cons r tail => exact ⟨r, tail, rfl⟩
  have hdecomp : full = (listTasks m params).tasks ++ (r :: tail) := by
    rw [htasks, ← hrt]
    exact (List.take_append_drop L full).symm
  have htasks_decomp : (listTasks m params).tasks =
      (listTasks m params).tasks.dropLast ++ [last] :=
    (List.dropLast_append_getLast htne).symm
  have hids : full.map (fun t => t.id) =
      ((listTasks m params).tasks.dropLast.map (fun t => t.id)) ++
        (last.id :: r.id :: tail.map (fun t => t.id)) := by
    conv_lhs => rw [hdecomp, htasks_decomp]
    simp
  have hpair : List.Sublist [last.id, r.id] (full.map (fun t => t.id)) := by
    rw [hids]
    have h1 : List.Sublist [last.id, r.id]
        (last.id :: r.id :: tail.map (fun t => t.id)) :=
      List.Sublist.cons₂ _ (List.Sublist.cons₂ _ (List.nil_sublist _))
    exact h1.trans (List.sublist_append_right _ _)
  have hfullsub : List.Sublist (full.map (fun t => t.id)) m.taskOrder := by
    rw [hFull, filterMap_pageFilter_map_id hid]
    exact (filterMap_guard_sublist _ _).trans (List.drop_sublist _ _)
  obtain ⟨i, j, hi, hj, hij, hjlen⟩ := pair_sublist_idx hnodup (hpair.trans hfullsub)
  have hlidx : lastIdx m (some last.id) = (i : Int) := by
    simp [lastIdx, hlast_id_ne, hi]
  have hprop : 0 ≤ lastIdx m ((listTasks m params).tasks.getLast?.map (fun t => t.id)) ∧
      lastIdx m ((listTasks m params).tasks.getLast?.map (fun t => t.id)) <
        (m.taskOrder.length : Int) - 1 := by
    rw [hlastEq]
    rw [show (some last).map (fun t => t.id) = some last.id from rfl, hlidx]
    constructor
    · exact Int.ofNat_nonneg i
    · omega
  refine ⟨?_, ?_, ?_⟩
  · rw [listTasks_hasMore]
    exact decide_eq_true hprop
  · rw [listTasks_nextCursor]
    rw [if_pos ⟨hprop, by rw [hlastEq]; rfl⟩]
  · rw [hlastEq]
    rfl

/-- Without a state filter (and with no falsy ids in the order), `hasMore`
is `true` exactly when more tasks remain beyond the returned page. -/
theorem listTasks_hasMore_exact_nofilter {m : TaskManager} {params : TaskListParams}
    (hwf : WF m) (hne : "" ∉ m.taskOrder) (hL : 1 ≤ params.limit.getD 50)
    (hstate : params.state = none) :
    ((listTasks m params).hasMore = true ↔
      params.limit.getD 50 <
        ((m.taskOrder.drop (listStart m params.cursor)).filterMap
          (pageFilter m params.state)).length) := by
  constructor
  · intro hhm
    by_contra hnot
    push_neg at hnot
    obtain ⟨hnodup, hmem, hid, hkeys⟩ := hwf
    set L := params.limit.getD 50 with hLdef
    set full := (m.taskOrder.drop (listStart m params.cursor)).filterMap
      (pageFilter m params.state) with hFull
    have hall : ∀ tid ∈ m.taskOrder.drop (listStart m params.cursor),
        (pageFilter m params.state tid).isSome = true := by
      intro tid htid
      have htidT : tid ∈ m.taskOrder := (List.drop_sublist _ _).subset htid
      have htne : tid ≠ "" := fun h => hne (h ▸ htidT)
      have hsome := (hmem tid).mp htidT
      obtain ⟨t, ht⟩ := Option.isSome_iff_exists.mp hsome
      have : pageFilter m params.state tid = some t := by
        rw [pageFilter_eq_some]
        exact ⟨htne, ht, by rw [hstate]; rfl⟩
      simp [this]
    have htasks : (listTasks m params).tasks = full := by
      rw [listTasks_tasks, ← hFull]
      exact List.take_of_length_le hnot
    have hidsAll : full.map (fun t => t.id) =
        m.taskOrder.drop (listStart m params.cursor) := by
      rw [hFull, filterMap_pageFilter_map_id hid]
      exact filterMap_guard_of_all _ _ hall
    cases hfe : full with
    | nil =>
      rw [listTasks_hasMore, htasks, hfe] at hhm
      simp [lastIdx] at hhm
    | cons f0 frest =>
      have hfne : full ≠ [] := by rw [hfe]; simp
      have htne : (listTasks m params).tasks ≠ [] := by rw [htasks]; exact hfne
      have hlastEq : (listTasks m params).tasks.getLast? =
          some ((listTasks m params).tasks.getLast htne) :=
        List.getLast?_eq_getLast _ htne
      set last := (listTasks m params).tasks.getLast htne with hlastDef
      have hlast_mem_full : last ∈ full := by
        have h1 : last ∈ (listTasks m params).tasks := List.getLast_mem htne
        rw [htasks] at h1
        exact h1
      obtain ⟨tidl, -, htne2, hlget, -⟩ := mem_filterMap_pageFilter hlast_mem_full
      have hlast_id_ne : last.id ≠ "" := by
        rw [hid tidl last hlget]
        exact htne2
      -- the last returned task's id is the final entry of the full order
      have hfull_last : (full.map (fun t => t.id)).getLast? = some last.id := by
        have h1 : full.getLast? = some last := by
          rw [← htasks]
          exact hlastEq
        calc (full.map (fun t => t.id)).getLast?
            = Option.map (fun t => t.id) full.getLast? := List.getLast?_map _ _
          _ = some last.id := by rw [h1]; rfl
      have hdropne : m.taskOrder.drop (listStart m params.cursor) ≠ [] := by
        intro h
        rw [hidsAll] at hfull_last
        rw [h] at hfull_last
        cases hfull_last
      have horder_last : m.taskOrder.getLast? = some last.id := by
        rw [hidsAll] at hfull_last
        have h3 : (m.taskOrder.take (listStart m params.cursor) ++
            m.taskOrder.drop (listStart m params.cursor)).getLast? = some last.id := by
          rw [List.getLast?_append, hfull_last]
          rfl
        rw [List.take_append_drop] at h3
        exact h3
      have hn1 : 1 ≤ m.taskOrder.length := by
        have : m.taskOrder ≠ [] := by
          intro h
          rw [h] at horder_last
          cases horder_last
        cases hh : m.taskOrder with
        | nil => exact absurd hh this
        | cons a rest => simp
      have hgetl : m.taskOrder[m.taskOrder.length - 1]? = some last.id := by
        rw [← List.getLast?_eq_getElem?]
        exact horder_last
      have hidx : idxOf? m.taskOrder last.id = some (m.taskOrder.length - 1) :=
        idxOf?_of_getElem hnodup hgetl
      rw [listTasks_hasMore, hlastEq] at hhm
      rw [show (some last).map (fun t => t.id) = some last.id from rfl] at hhm
      rw [show lastIdx m (some last.id) = ((m.taskOrder.length - 1 : Nat) : Int) from by
        simp [lastIdx, hlast_id_ne, hidx]] at hhm
      rw [decide_eq_true_iff] at hhm
      omega
  · intro hmore
    exact (listTasks_more_hasMore hwf hL hmore).1

/-- Five tasks inserted in order `t1..t5` (no handler registered, so all
stay `submitted`). -/
def m5 : TaskManager :=
  (createTask (createTask (createTask (createTask (createTask {}
    ⟨"t1", none, msgHi⟩ "s1" 0).1
    ⟨"t2", none, msgHi⟩ "s2" 0).1
    ⟨"t3", none, msgHi⟩ "s3" 0).1
    ⟨"t4", none, msgHi⟩ "s4" 0).1
    ⟨"t5", none, msgHi⟩ "s5" 0).1

/-- A two-task store: `a` submitted, `b` completed. -/
def mAB : TaskManager :=
  { tasks := [("a", { id := "a", sessionId := "s", status := ⟨.submitted, 0, none⟩ }),
              ("b", { id := "b", sessionId := "s", status := ⟨.completed, 0, none⟩ })],
    taskOrder := ["a", "b"] }

/-- C6 counterexample.  With a state filter, `hasMore` can be `true` even
though no further task satisfying the query remains: over `a` (submitted)
and `b` (completed), `listTasks {state: submitted}` returns `[a]` — the
complete set of matching tasks — yet reports `hasMore = true` (with a
`nextCursor`), because the code compares the last returned task's position
against the *unfiltered* insertion order. -/
theorem listTasks_filtered_hasMore_counterexample :
    (listTasks mAB { state := some .submitted }).tasks.map (fun t => t.id) = ["a"] ∧
    ((mAB.taskOrder.drop 0).filterMap (pageFilter mAB (some .submitted))).length = 1 ∧
    (listTasks mAB { state := some .submitted }).hasMore = true ∧
    (listTasks mAB { state := some .submitted }).nextCursor = some "a" := by
  refine ⟨rfl, rfl, rfl, rfl⟩

/-- C6 (amended).  `listTasks` returns the matching tasks positioned
strictly after the cursor (from the beginning for an absent, empty, or
unknown cursor), in insertion order, capped at `limit`: precisely the
first `limit` elements of the filtered remainder of the insertion order.
`hasMore` (with `nextCursor` = the last returned task's id) is `true`
whenever more tasks satisfying the query remain beyond the page, and with
no state filter it is `true` *exactly* then; with a state filter it can
also be `true` spuriously when only non-matching tasks remain.  The
claim's `limit=2` over five tasks example behaves as stated. -/
theorem listTasks_pagination :
    (∀ (m : TaskManager) (params : TaskListParams),
      (listTasks m params).tasks =
        ((m.taskOrder.drop (listStart m params.cursor)).filterMap
          (pageFilter m params.state)).take (params.limit.getD 50)) ∧
    (∀ (m : TaskManager) (params : TaskListParams),
      (listTasks m params).tasks.length ≤ params.limit.getD 50) ∧
    (∀ (m : TaskManager) (params : TaskListParams) (t : Task),
      t ∈ (listTasks m params).tasks → stateMatches params.state t = true) ∧
    (∀ (m : TaskManager) (params : TaskListParams), WF m →
      List.Sublist ((listTasks m params).tasks.map (fun t => t.id))
        (m.taskOrder.drop (listStart m params.cursor))) ∧
    (∀ (m : TaskManager) (params : TaskListParams), WF m →
      1 ≤ params.limit.getD 50 →
      params.limit.getD 50 <
        ((m.taskOrder.drop (listStart m params.cursor)).filterMap
          (pageFilter m params.state)).length →
      ((listTasks m params).hasMore = true ∧
       (listTasks m params).nextCursor =
         (listTasks m params).tasks.getLast?.map (fun t => t.id))) ∧
    (∀ (m : TaskManager) (params : TaskListParams), WF m → "" ∉ m.taskOrder →
      1 ≤ params.limit.getD 50 → params.state = none →
      ((listTasks m params).hasMore = true ↔
        params.limit.getD 50 <
          ((m.taskOrder.drop (listStart m params.cursor)).filterMap
            (pageFilter m params.state)).length)) ∧
    ((listTasks m5 { limit := some 2 }).tasks.map (fun t => t.id) = ["t1", "t2"] ∧
     (listTasks m5 { limit := some 2 }).hasMore = true ∧
     (listTasks m5 { limit := some 2 }).nextCursor = some "t2" ∧
     (listTasks m5 { cursor := some "t2" }).tasks.map (fun t => t.id) =
       ["t3", "t4", "t5"] ∧
     (listTasks m5 { cursor := some "t2" }).hasMore = false ∧
     (listTasks m5 { cursor := some "t2" }).nextCursor = none) := by
  refine ⟨listTasks_tasks, ?_, ?_, ?_, ?_, ?_, rfl, rfl, rfl, rfl, rfl, rfl⟩
  · intro m params
    rw [listTasks_tasks, List.length_take]
    exact Nat.min_le_left _ _
  · intro m params t ht
    rw [listTasks_tasks] at ht
    have := (List.take_sublist _ _).subset ht
    obtain ⟨-, -, -, -, hmatch⟩ := mem_filterMap_pageFilter this
    exact hmatch
  · intro m params hwf
    rw [listTasks_tasks, List.map_take]
    refine (List.take_sublist _ _).trans ?_
    rw [filterMap_pageFilter_map_id hwf.2.2.1]
    exact filterMap_guard_sublist _ _
  · intro m params hwf hL hmore
    exact ⟨(listTasks_more_hasMore hwf hL hmore).1,
      (listTasks_more_hasMore hwf hL hmore).2.1⟩
  · intro m params hwf hne hL hstate
    exact listTasks_hasMore_exact_nofilter hwf hne hL hstate

/-- Witness for `listTasks_pagination`: its general clauses applied to
the concrete five-task store `m5` with `limit = 2`. -/
theorem listTasks_pagination_witness :
    (listTasks m5 { limit := some 2 }).tasks.length ≤ 2 ∧
    (listTasks m5 { limit := some 2 }).hasMore = true := by
  have hwf5 : WF m5 :=
    wf_createTask (wf_createTask (wf_createTask (wf_createTask (wf_createTask wf_empty
      ⟨"t1", none, msgHi⟩ "s1" 0 (by decide))
      ⟨"t2", none, msgHi⟩ "s2" 0 (by decide))
      ⟨"t3", none, msgHi⟩ "s3" 0 (by decide))
      ⟨"t4", none, msgHi⟩ "s4" 0 (by decide))
      ⟨"t5", none, msgHi⟩ "s5" 0 (by decide)
  have h1 := listTasks_pagination.2.1 m5 { limit := some 2 }
  have h2 := (listTasks_pagination.2.2.2.2.1 m5 { limit := some 2 } hwf5 (by decide)
    (by decide)).1
  exact ⟨h1, h2⟩

/-- The store after creating id `"a"` twice. -/
def mDup : TaskManager :=
  (createTask (createTask {} ⟨"a", none, msgHi⟩ "s1" 0).1 ⟨"a", none, msgHi⟩ "s2" 1).1

/-- C10 counterexample.  `createTask` pushes the id onto the insertion
order unconditionally while `Map.set` overwrites, so re-creating an
existing id leaves the id *twice* in the index, and `listTasks` then
returns the single stored record twice. -/
theorem duplicate_create_duplicates_order_counterexample :
    mDup.taskOrder = ["a", "a"] ∧
    mDup.tasks.length = 1 ∧
    (listTasks mDup {}).tasks.map (fun t => t.id) = ["a", "a"] ∧
    ¬ (listTasks mDup {}).tasks.length ≤ mDup.tasks.length := by
  refine ⟨rfl, rfl, rfl, by decide⟩

/-- C10 (amended).  When every `createTask` uses an id not already in the
store, the insertion-order index stays duplicate-free and coherent with
the map (and the other operations preserve that coherence
unconditionally); a `listTasks` with no filter and `limit ≥` store size
then returns each stored task exactly once, in insertion order.  (The
counterexample shows the hypothesis is necessary: re-creating an existing
id duplicates its index entry.) -/
theorem insertion_order_unique :
    (∀ (m : TaskManager) (params : TaskSendParams) (g : String) (now : Nat),
      WF m → params.id ∉ m.taskOrder → WF (createTask m params g now).1) ∧
    (∀ (m : TaskManager) (tid : String) (now : Nat), WF m →
      WF (cancelTask m tid now).1) ∧
    (∀ (m : TaskManager) (p : PendingExec) (now : Nat), WF m →
      WF (execPhase2 m p now).1) ∧
    (∀ (m : TaskManager) (now maxAgeMs : Nat), WF m → WF (cleanup m now maxAgeMs)) ∧
    (∀ (m : TaskManager) (L : Nat), WF m → "" ∉ m.taskOrder →
      m.taskOrder.length ≤ L →
      ((listTasks m { limit := some L }).tasks.map (fun t => t.id) = m.taskOrder ∧
       (listTasks m { limit := some L }).tasks.Nodup ∧
       (∀ t : Task, t ∈ (listTasks m { limit := some L }).tasks ↔
          ∃ k, mapGet m.tasks k = some t))) := by
  refine ⟨fun m params g now hwf hfresh => wf_createTask hwf params g now hfresh,
    fun m tid now hwf => wf_cancelTask hwf tid now,
    fun m p now hwf => wf_execPhase2 hwf p now,
    fun m now maxAgeMs hwf => wf_cleanup hwf now maxAgeMs, ?_⟩
  intro m L hwf hne hlen
  obtain ⟨hnodup, hmem, hid, hkeys⟩ := hwf
  have hall : ∀ tid ∈ m.taskOrder, (pageFilter m none tid).isSome = true := by
    intro tid htid
    have htne : tid ≠ "" := fun h => hne (h ▸ htid)
    obtain ⟨t, ht⟩ := Option.isSome_iff_exists.mp ((hmem tid).mp htid)
    have : pageFilter m none tid = some t := by
      rw [pageFilter_eq_some]
      exact ⟨htne, ht, rfl⟩
    simp [this]
  have hstart : listStart m (({ limit := some L } : TaskListParams)).cursor = 0 := rfl
  have hfl : (m.taskOrder.filterMap (pageFilter m none)).length = m.taskOrder.length :=
    filterMap_length_of_all_isSome m.taskOrder hall
  have htasks : (listTasks m { limit := some L }).tasks =
      m.taskOrder.filterMap (pageFilter m none) := by
    rw [listTasks_tasks, hstart, List.drop_zero]
    exact List.take_of_length_le (by rw [hfl]; exact hlen)
  have hids : (listTasks m { limit := some L }).tasks.map (fun t => t.id) =
      m.taskOrder := by
    rw [htasks, filterMap_pageFilter_map_id hid]
    exact filterMap_guard_of_all _ _ hall
  refine ⟨hids, ?_, ?_⟩
  · have : ((listTasks m { limit := some L }).tasks.map (fun t => t.id)).Nodup := by
      rw [hids]
      exact hnodup
    exact this.of_map _
  · intro t
    rw [htasks]
    constructor
    · intro hmemT
      obtain ⟨tid, -, -, hget, -⟩ := mem_filterMap_pageFilter hmemT
      exact ⟨tid, hget⟩
    · rintro ⟨k, hk⟩
      have hkmem : k ∈ m.taskOrder := (hmem k).mpr (by simp [hk])
      have hkne : k ≠ "" := fun h => hne (h ▸ hkmem)
      refine List.mem_filterMap.mpr ⟨k, hkmem, ?_⟩
      rw [pageFilter_eq_some]
      exact ⟨hkne, hk, rfl⟩

/-- Witness for `insertion_order_unique`: the duplicate-free enumeration
over the concrete five-task store, with `WF` built by the theorem's own
preservation clause starting from the empty store. -/
theorem insertion_order_unique_witness :
    (listTasks m5 { limit := some 5 }).tasks.map (fun t => t.id) = m5.taskOrder ∧
    (listTasks m5 { limit := some 5 }).tasks.Nodup := by
  have hwf5 : WF m5 :=
    insertion_order_unique.1 _ ⟨"t5", none, msgHi⟩ "s5" 0
      (insertion_order_unique.1 _ ⟨"t4", none, msgHi⟩ "s4" 0
        (insertion_order_unique.1 _ ⟨"t3", none, msgHi⟩ "s3" 0
          (insertion_order_unique.1 _ ⟨"t2", none, msgHi⟩ "s2" 0
            (insertion_order_unique.1 {} ⟨"t1", none, msgHi⟩ "s1" 0 wf_empty
              (by decide))
            (by decide))
          (by decide))
        (by decide))
      (by decide)
  have h := insertion_order_unique.2.2.2.2 m5 5 hwf5 (by decide) (by decide)
  exact ⟨h.1, h.2.1⟩

end A2A
